import Mathlib

/-!
Verification of the schedsim discrete-event scheduling simulator.

We give a shallow embedding of the simulator's data model and of the
processor policies (RTC, TS, SRPT-TS, PS, Bounded), of the FIFO and
priority queue primitives, and of the statistics drain, and prove the
specified properties about them.

Go float64 virtual times and service times are modelled as rationals
(exact arithmetic); Go ints are modelled as integers.  The engine
package (virtual clock, cooperative wait primitives) is not part of
the sources; where a property needs its behaviour we model the wait
semantics from the specification, as noted on each definition.
-/

namespace SchedSim

/-- The base request type (`Request` in the sources): creation time,
remaining service time and the immutable original service time. -/
structure Request where
  initTime : ℚ
  serviceTime : ℚ
  originalServiceTime : ℚ
  deriving DecidableEq, Repr

/-- `Request.GetServiceTime` from the sources. -/
def Request.getServiceTime (r : Request) : ℚ := r.serviceTime

/-- `Request.SubServiceTime` from the sources: reduces the remaining
service time by `t`. -/
def Request.subServiceTime (r : Request) (t : ℚ) : Request :=
  { r with serviceTime := r.serviceTime - t }

/-- `Request.GetOriginalServiceTime` from the sources. -/
def Request.getOriginalServiceTime (r : Request) : ℚ := r.originalServiceTime

/-- `Request.GetDelay` from the sources: `engine.GetTime() - r.InitTime`,
with the current virtual time passed explicitly. -/
def Request.getDelay (r : Request) (now : ℚ) : ℚ := now - r.initTime

/-- `SimpleReqCreator.NewRequest` from the sources: a fresh request whose
remaining and original service times both equal the sampled service time
and whose `InitTime` is the creation instant. -/
def newRequest (now service : ℚ) : Request :=
  { initTime := now, serviceTime := service, originalServiceTime := service }

/-! ## The processor-sharing processor (`PSProcessor`) -/

/-- State of `PSProcessor` from the sources: worker count, concurrent
request count, the in-progress request list, the index of the current
shortest request (`curr`, a list element pointer in Go), and the time of
the previous service-time update. -/
structure PSProcessor where
  workerCount : ℤ
  count : ℤ
  reqList : List Request
  curr : ℕ
  prevTime : ℚ
  deriving DecidableEq, Repr

/-- `NewPSProcessor` followed by `SetWorkerCount w`: one worker by
default, empty request list, zero-valued remaining fields. -/
def newPSProcessor (w : ℤ) : PSProcessor :=
  { workerCount := w, count := 0, reqList := [], curr := 0, prevTime := 0 }

/-- `PSProcessor.getFactor` from the sources: `1` when
`workerCount > count`, otherwise `workerCount / count`. -/
def PSProcessor.getFactor (p : PSProcessor) : ℚ :=
  if p.workerCount > p.count then 1 else (p.workerCount : ℚ) / (p.count : ℚ)

/-- `PSProcessor.updateServiceTimes` from the sources: subtract
`(now - prevTime) * getFactor` from every in-progress request's
remaining service time and set `prevTime := now`.  The current virtual
time (`engine.GetTime()`) is passed explicitly. -/
def PSProcessor.updateServiceTimes (p : PSProcessor) (now : ℚ) : PSProcessor :=
  let diff := (now - p.prevTime) * p.getFactor
  { p with
    prevTime := now
    reqList := p.reqList.map (fun r => r.subServiceTime diff) }

/-- Auxiliary loop of `PSProcessor.getMinService`: scan the list keeping
the index and value of the strictly smallest remaining service time seen
so far (ties keep the earlier index). -/
def minServiceAux : List Request → ℕ → ℕ → ℚ → ℕ
  | [], _, bestI, _ => bestI
  | r :: rs, i, bestI, bestS =>
    if r.serviceTime < bestS then
      minServiceAux rs (i + 1) i r.serviceTime
    else
      minServiceAux rs (i + 1) bestI bestS

/-- `PSProcessor.getMinService` from the sources: the index of the first
in-progress request with minimal remaining service time.  The Go loop
initialises the minimum with the front element and then scans the whole
list starting from the front again; the result is the first index
attaining the minimum. -/
def getMinService (l : List Request) : ℕ :=
  match l with
  | [] => 0
  | r :: _ => minServiceAux l 0 0 r.serviceTime

/-! ## The time-sharing processor (`TSProcessor`)

The engine's cooperative wait primitives are not part of the sources.
Modelled from the spec: `wait(d)` advances the actor's virtual time by
exactly `d`; `read_in_queue` returns the head of a non-empty input
queue and blocks on an empty one; `write_in_queue` appends to the tail
of the actor's own input queue. -/

/-- Observable state of a `TSProcessor` (or `SrptTSProcessor`, whose Go
body is identical) together with its FIFO input queue: the queue
contents, the current virtual time, the requests handed to the drain
with their termination times, and counters of dispatches
(`ReadInQueue` returns) and re-enqueues (`WriteInQueue` calls). -/
structure TSState where
  queue : List Request
  now : ℚ
  terminated : List (Request × ℚ)
  dispatches : ℕ
  reenqueues : ℕ
  deriving DecidableEq, Repr

/-- One iteration of `TSProcessor.Run` from the sources: read a request;
if its remaining service time is at most the quantum, wait for it plus
the context cost and terminate it, otherwise wait a quantum plus the
context cost, subtract the quantum and re-enqueue at the tail of the
same input queue.  An empty queue blocks (`read_in_queue`), leaving the
state unchanged. -/
def tsStep (quantum ctxCost : ℚ) (s : TSState) : TSState :=
  match s.queue with
  | [] => s
  | req :: rest =>
    if req.getServiceTime ≤ quantum then
      let t := s.now + (req.getServiceTime + ctxCost)
      { queue := rest
        now := t
        terminated := s.terminated ++ [(req, t)]
        dispatches := s.dispatches + 1
        reenqueues := s.reenqueues }
    else
      let t := s.now + (quantum + ctxCost)
      { queue := rest ++ [req.subServiceTime quantum]
        now := t
        terminated := s.terminated
        dispatches := s.dispatches + 1
        reenqueues := s.reenqueues + 1 }

/-- An event visible to a time-sharing processor: one iteration of its
run loop, or the generator writing a freshly created request (with the
given creation time and sampled service time) to the shared queue. -/
inductive TSEvent where
  | dispatch : TSEvent
  | arrive (time service : ℚ) : TSEvent
  deriving DecidableEq, Repr

/-- Apply one `TSEvent` to a `TSState`. -/
def tsApply (quantum ctxCost : ℚ) (e : TSEvent) (s : TSState) : TSState :=
  match e with
  | .dispatch => tsStep quantum ctxCost s
  | .arrive t service => { s with queue := s.queue ++ [newRequest t service] }

/-- Run a time-sharing processor over a list of events. -/
def tsExec (quantum ctxCost : ℚ) : List TSEvent → TSState → TSState
  | [], s => s
  | e :: es, s => tsExec quantum ctxCost es (tsApply quantum ctxCost e s)

/-- All states a time-sharing run passes through (initial state included). -/
def tsTrace (quantum ctxCost : ℚ) : List TSEvent → TSState → List TSState
  | [], s => [s]
  | e :: es, s => s :: tsTrace quantum ctxCost es (tsApply quantum ctxCost e s)

/-- Initial `TSState`: an input queue, virtual time `t0`, nothing
terminated yet, no dispatches or re-enqueues. -/
def tsInit (queue : List Request) (t0 : ℚ) : TSState :=
  { queue := queue, now := t0, terminated := [], dispatches := 0, reenqueues := 0 }

/-! ## Action traces of `TSProcessor.Run` and `SrptTSProcessor.Run`

The two run loops are compared on the traces of engine-visible actions
they perform, over an arbitrary input-queue implementation given by a
dequeue and an enqueue function (the FIFO queue and the priority queue
both instantiate it). -/

/-- An engine-visible action performed by a time-sharing run loop. -/
inductive PAction where
  /-- `ReadInQueue` returned this request (a dispatch). -/
  | read (r : Request)
  /-- `Wait(d)` advanced virtual time by `d`. -/
  | wait (d : ℚ)
  /-- `SubServiceTime(amt)` was applied to this request. -/
  | subSvc (r : Request) (amt : ℚ)
  /-- `WriteInQueue` re-enqueued this request onto the input queue. -/
  | reenqueue (r : Request)
  /-- `TerminateReq` handed this request to the drain. -/
  | drainTerminate (r : Request)
  deriving DecidableEq, Repr

/-- `TSProcessor.Run` from the sources, as the trace of actions of its
first `fuel` iterations over an abstract input queue: read a request;
if its remaining service time is at most the quantum, wait for it plus
the context cost and terminate via the drain; otherwise wait a quantum
plus the context cost, subtract the quantum and re-enqueue. -/
def tsRunTrace {Q : Type} (deq : Q → Option (Request × Q)) (enq : Q → Request → Q)
    (quantum ctxCost : ℚ) : ℕ → Q → List PAction × Q
  | 0, q => ([], q)
  | fuel + 1, q =>
    match deq q with
    | none => ([], q)
    | some (req, q1) =>
      if req.getServiceTime ≤ quantum then
        let rest := tsRunTrace deq enq quantum ctxCost fuel q1
        (.read req :: .wait (req.getServiceTime + ctxCost) :: .drainTerminate req :: rest.1,
          rest.2)
      else
        let r2 := req.subServiceTime quantum
        let rest := tsRunTrace deq enq quantum ctxCost fuel (enq q1 r2)
        (.read req :: .wait (quantum + ctxCost) :: .subSvc req quantum :: .reenqueue r2 ::
          rest.1, rest.2)

/-- `SrptTSProcessor.Run` from the sources (transcribed from its own
lines, which mirror `TSProcessor.Run`), as the trace of actions of its
first `fuel` iterations over an abstract input queue. -/
def srptRunTrace {Q : Type} (deq : Q → Option (Request × Q)) (enq : Q → Request → Q)
    (quantum ctxCost : ℚ) : ℕ → Q → List PAction × Q
  | 0, q => ([], q)
  | fuel + 1, q =>
    match deq q with
    | none => ([], q)
    | some (req, q1) =>
      if req.getServiceTime ≤ quantum then
        let rest := srptRunTrace deq enq quantum ctxCost fuel q1
        (.read req :: .wait (req.getServiceTime + ctxCost) :: .drainTerminate req :: rest.1,
          rest.2)
      else
        let r2 := req.subServiceTime quantum
        let rest := srptRunTrace deq enq quantum ctxCost fuel (enq q1 r2)
        (.read req :: .wait (quantum + ctxCost) :: .subSvc req quantum :: .reenqueue r2 ::
          rest.1, rest.2)

/-! ## The statistics drain (`AllKeeper`) -/

/-- `RequestData` from the sources: the per-request record kept by the
`AllKeeper` drain. -/
structure RequestData where
  serviceTime : ℚ
  delay : ℚ
  deriving DecidableEq, Repr

/-- `AllKeeper.avg` from the sources: the mean of the recorded delays. -/
def AllKeeper.avg (items : List RequestData) : ℚ :=
  (items.map (fun it => it.delay)).sum / (items.length : ℚ)

/-- The radicand of `AllKeeper.std` from the sources: the code computes
`math.Sqrt(sumOfSquaredDelays/count - avg())`, so the quantity under the
square root is the mean of the squared delays minus the mean delay. -/
def AllKeeper.stdRadicand (items : List RequestData) : ℚ :=
  (items.map (fun it => it.delay * it.delay)).sum / (items.length : ℚ) - AllKeeper.avg items

/-- The radicand of the standard deviation of the recorded delays as the
specification states it: the mean of the squared delays minus the square
of the mean delay. -/
def AllKeeper.specStdRadicand (items : List RequestData) : ℚ :=
  (items.map (fun it => it.delay * it.delay)).sum / (items.length : ℚ) -
    AllKeeper.avg items * AllKeeper.avg items

/-! ## The priority queue (`PQueue`)

The backing store `pQueue` is a Go slice manipulated by the standard
library's `container/heap` sift-up and sift-down; we embed those
algorithms over a `List` with an abstract strict comparison `lt`
(instantiated with `pQueue.Less`). -/

/-- `pQueue.Swap` from the sources: exchange the elements at indices
`i` and `j` (out-of-range indices leave the list unchanged). -/
def swapL {α : Type} (l : List α) (i j : ℕ) : List α :=
  match l[i]?, l[j]? with
  | some a, some b => (l.set i b).set j a
  | _, _ => l

/-- `container/heap`'s `up`: while the element at `j` compares strictly
less than its parent `(j-1)/2`, swap it with the parent. -/
def siftUp {α : Type} [Inhabited α] (lt : α → α → Bool) (l : List α) (j : ℕ) : List α :=
  if hj0 : j = 0 then l
  else
    let i := (j - 1) / 2
    if lt (l.getD j default) (l.getD i default) then siftUp lt (swapL l i j) i else l
termination_by j
decreasing_by
  exact Nat.lt_of_le_of_lt (Nat.div_le_self _ _) (Nat.sub_lt (Nat.pos_of_ne_zero hj0) one_pos)

/-- The child `container/heap`'s `down` descends to: the right child
`j1 + 1` when it exists below `n` and compares strictly less than the
left child `j1`, else the left child. -/
def downChild {α : Type} [Inhabited α] (lt : α → α → Bool) (l : List α) (j1 n : ℕ) : ℕ :=
  if j1 + 1 < n && lt (l.getD (j1 + 1) default) (l.getD j1 default) then j1 + 1 else j1

/-- `container/heap`'s `down` restricted below bound `n`: push the
element at `i` down while a child below `n` compares strictly less,
always descending to the smaller of the two children. -/
def siftDown {α : Type} [Inhabited α] (lt : α → α → Bool) (l : List α) (i n : ℕ) : List α :=
  if h1 : 2 * i + 1 < n then
    let j := downChild lt l (2 * i + 1) n
    if lt (l.getD j default) (l.getD i default) then siftDown lt (swapL l i j) j n else l
  else l
termination_by n - i
decreasing_by
  have hge : 2 * i + 1 ≤ downChild lt l (2 * i + 1) n := by
    unfold downChild
    split <;> omega
  omega

/-- `heap.Push` as used by `PQueue.Enqueue`: append the element and sift
it up from the last position. -/
def heapPush {α : Type} [Inhabited α] (lt : α → α → Bool) (l : List α) (x : α) : List α :=
  siftUp lt (l ++ [x]) l.length

/-- `heap.Pop` as used by `PQueue.Dequeue`: swap the root with the last
element, sift the new root down below the last position, then remove and
return the last element (the old root).  Popping an empty queue is a
programming error in Go (`none` here). -/
def heapPop {α : Type} [Inhabited α] (lt : α → α → Bool) (l : List α) :
    Option (α × List α) :=
  match l with
  | [] => none
  | _ :: _ =>
    let n := l.length - 1
    let l2 := siftDown lt (swapL l 0 n) 0 n
    match l2.getLast? with
    | some x => some (x, l2.dropLast)
    | none => none

/-- `pQueue.Less` from the sources, over abstract comparison-key and
init-time projections: equal comparison keys tie-break by earlier init
time, otherwise compare the keys. -/
def pqLess {α : Type} (cv iv : α → ℚ) (x y : α) : Bool :=
  if cv x = cv y then decide (iv x < iv y) else decide (cv x < cv y)

/-- An element handed to `PQueue.Enqueue`: a concrete `ReqInterface`
value either does or does not additionally implement the
`blocks.Comparable` interface, and carries its dynamic type name
(Go's `%T`). -/
inductive ReqElem where
  /-- An element whose dynamic type implements `blocks.Comparable`,
  exposing a comparison key, a service time and an init time. -/
  | comparable (typeName : String) (cmpVal serviceTime initTime : ℚ) : ReqElem
  /-- An element whose dynamic type does not implement
  `blocks.Comparable`. -/
  | plain (typeName : String) (r : Request) : ReqElem
  deriving DecidableEq, Repr

/-- The dynamic type name of an element (Go's `%T` verb). -/
def ReqElem.typeName : ReqElem → String
  | .comparable tn _ _ _ => tn
  | .plain tn _ => tn

instance : Inhabited ReqElem := ⟨.plain "" ⟨0, 0, 0⟩⟩

instance : Inhabited Request := ⟨⟨0, 0, 0⟩⟩

/-- Whether the element's dynamic type implements `blocks.Comparable`
(the `el.(Comparable)` type assertion succeeds). -/
def ReqElem.isComparable : ReqElem → Bool
  | .comparable _ _ _ _ => true
  | .plain _ _ => false

/-- The comparison key: `pQueue.Less` on `ReqElem`s compares
`GetCmpVal` and ties on `GetInitTime`, so a comparable element is
ordered by those two projections. -/
def ReqElem.cmpVal : ReqElem → ℚ
  | .comparable _ c _ _ => c
  | .plain _ _ => 0

/-- The init time of an element (`GetInitTime`). -/
def ReqElem.initTime : ReqElem → ℚ
  | .comparable _ _ _ i => i
  | .plain _ r => r.initTime

/-- `PQueue.Enqueue` from the sources: assert that the element
implements `blocks.Comparable`; on failure panic with a diagnostic
naming the element's dynamic type and leave the backing store
untouched; on success `heap.Push` the element.  The panic is modelled
as the returned message. -/
def PQueue.enqueue (pq : List ReqElem) (el : ReqElem) : List ReqElem × Option String :=
  if el.isComparable then
    (heapPush (pqLess ReqElem.cmpVal ReqElem.initTime) pq el, none)
  else
    (pq, some ("Element enqueued to PQueue does not implement blocks.Comparable interface: "
      ++ el.typeName))

/-- `PQueue.Dequeue` from the sources: `heap.Pop` the backing store. -/
def PQueue.dequeue (pq : List ReqElem) : Option (ReqElem × List ReqElem) :=
  heapPop (pqLess ReqElem.cmpVal ReqElem.initTime) pq

/-! ## The `PSProcessor` run loop

The loop suspends in `WaitInterruptible`.  Modelled from the spec:
`wait_interruptible(d)` resumes either at timer expiry after exactly
`d` units (`interrupted = true`), or when a request arrives on the
input queue (`interrupted = false`, the arrived request returned),
whichever comes first; the sentinel `d < 0` waits indefinitely.  A
state records the processor between suspensions, with the timer kept as
an absolute wake-up time. -/

/-- A pending arrival: the virtual time at which the generator creates
and writes the request, and its sampled service time. -/
structure Arrival where
  time : ℚ
  service : ℚ
  deriving DecidableEq, Repr

/-- State of a `PSProcessor` run at a suspension point: the processor,
the current virtual time, the absolute wake-up time of the armed timer
(`none` is the indefinite sentinel `d = -1`), the pending arrivals, the
requests handed to the drain with their termination times, and a flag
recording whether `getFactor` returned `1` at every use so far. -/
structure PSState where
  proc : PSProcessor
  now : ℚ
  timer : Option ℚ
  arrivals : List Arrival
  terminated : List (Request × ℚ)
  factorOne : Bool
  deriving DecidableEq, Repr

/-- The tail of `PSProcessor.Run`'s loop body: if some requests remain,
point `curr` at the one with minimal remaining service time and arm the
timer with `curr.GetServiceTime() / getFactor()`; otherwise arm the
indefinite wait.  A positive `count` with an empty request list would
dereference a nil front pointer in Go (`none` here). -/
def psSched (s : PSState) : Option PSState :=
  if s.proc.count > 0 then
    match s.proc.reqList with
    | [] => none
    | _ :: _ =>
      let c := getMinService s.proc.reqList
      let d := (s.proc.reqList.getD c default).getServiceTime / s.proc.getFactor
      some { s with
        proc := { s.proc with curr := c }
        timer := some (s.now + d)
        factorOne := s.factorOne && decide (s.proc.getFactor = 1) }
  else
    some { s with timer := none }

/-- Resumption of `PSProcessor.Run` by an arrival at time `a.time`
(`intr = false`): update service times, increment `count`, push the new
request at the list tail, then reschedule. -/
def psArrive (s : PSState) (a : Arrival) (rest : List Arrival) : Option PSState :=
  let f0 := s.proc.getFactor
  let p1 := s.proc.updateServiceTimes a.time
  let p2 := { p1 with
    count := p1.count + 1
    reqList := p1.reqList ++ [newRequest a.time a.service] }
  psSched { s with
    proc := p2
    now := a.time
    arrivals := rest
    factorOne := s.factorOne && decide (f0 = 1) }

/-- Resumption of `PSProcessor.Run` by timer expiry at time `T`
(`intr = true`): update service times, terminate the request pointed to
by `curr` via the drain, remove it, decrement `count`, then reschedule.
An out-of-range `curr` would dereference nil in Go (`none` here). -/
def psTimer (s : PSState) (T : ℚ) : Option PSState :=
  let f0 := s.proc.getFactor
  let p1 := s.proc.updateServiceTimes T
  if h : p1.curr < p1.reqList.length then
    let req := p1.reqList.get ⟨p1.curr, h⟩
    let p2 := { p1 with
      count := p1.count - 1
      reqList := p1.reqList.eraseIdx p1.curr }
    psSched { s with
      proc := p2
      now := T
      terminated := s.terminated ++ [(req, T)]
      factorOne := s.factorOne && decide (f0 = 1) }
  else none

/-- One suspension-to-suspension step: resume at the earlier of the next
arrival and the armed timer (the timer wins a tie); with no timer armed
wait for the next arrival; with neither, the actor stays blocked
(`none`). -/
def psStep (s : PSState) : Option PSState :=
  match s.timer, s.arrivals with
  | none, [] => none
  | none, a :: rest => psArrive s a rest
  | some T, [] => psTimer s T
  | some T, a :: rest => if a.time < T then psArrive s a rest else psTimer s T

/-- Initial state of a PS run: `NewPSProcessor` with `SetWorkerCount w`,
virtual time `0`, the indefinite wait armed (`d = -1` before the loop),
and the whole arrival sequence pending. -/
def psInit (w : ℤ) (arrivals : List Arrival) : PSState :=
  { proc := newPSProcessor w
    now := 0
    timer := none
    arrivals := arrivals
    terminated := []
    factorOne := true }

/-- Run a PS processor for at most `fuel` steps. -/
def psRun : ℕ → PSState → PSState
  | 0, s => s
  | fuel + 1, s =>
    match psStep s with
    | none => s
    | some s2 => psRun fuel s2

/-- All states a PS run passes through (initial state included). -/
def psTrace : ℕ → PSState → List PSState
  | 0, s => [s]
  | fuel + 1, s =>
    match psStep s with
    | none => [s]
    | some s2 => s :: psTrace fuel s2

/-! ## The bounded-buffer processors -/

/-- A request as seen by the bounded processors: the `*ColoredReq`
type assertion either succeeds, exposing the color tag, or fails. -/
inductive BReq where
  /-- A `*ColoredReq` with its color tag. -/
  | colored (color : ℤ) (r : Request) : BReq
  /-- Any request variant that is not a `*ColoredReq`. -/
  | other (r : Request) : BReq
  deriving DecidableEq, Repr

/-- The underlying request. -/
def BReq.req : BReq → Request
  | .colored _ r => r
  | .other r => r

/-- The color tag, when the `*ColoredReq` type assertion succeeds. -/
def BReq.colorOf : BReq → Option ℤ
  | .colored c _ => some c
  | .other _ => none

/-- State of a bounded processor run: the service-time multiplier
variable `factor`, the virtual time, the waits charged so far in
dispatch order, the requests forwarded downstream, and the requests
terminated with their termination times. -/
structure BState where
  factor : ℚ
  now : ℚ
  waits : List ℚ
  forwarded : List BReq
  terminated : List (BReq × ℚ)
  deriving DecidableEq, Repr

/-- `BoundedProcessor`'s multiplier assignment: color `1` selects `2`,
any other color selects `1`. -/
def colorRule1 (c : ℤ) : ℚ := if c = 1 then 2 else 1

/-- `BoundedProcessor2`'s multiplier assignment: color `0` selects `2`,
any other color selects `1`. -/
def colorRule2 (c : ℤ) : ℚ := if c = 0 then 2 else 1

/-- One iteration of `BoundedProcessor.Run` from the sources: read a
request; only if it is a `*ColoredReq` reassign `factor` by its color;
wait `factor * serviceTime`; then forward downstream if the observed
output-queue length `qlen` is below the bound, else terminate.  The
output-queue length is supplied per iteration, since the downstream
consumer is a separate actor. -/
def boundedStep (bufSize : ℤ) (s : BState) (req : BReq) (qlen : ℤ) : BState :=
  let f := match req with
    | .colored c _ => colorRule1 c
    | .other _ => s.factor
  let w := f * req.req.getServiceTime
  let t := s.now + w
  if qlen < bufSize then
    { factor := f, now := t, waits := s.waits ++ [w]
      forwarded := s.forwarded ++ [req], terminated := s.terminated }
  else
    { factor := f, now := t, waits := s.waits ++ [w]
      forwarded := s.forwarded, terminated := s.terminated ++ [(req, t)] }

/-- Run `BoundedProcessor` over a list of (request, observed
output-queue length) pairs. -/
def boundedRun (bufSize : ℤ) : List (BReq × ℤ) → BState → BState
  | [], s => s
  | (req, qlen) :: rest, s => boundedRun bufSize rest (boundedStep bufSize s req qlen)

/-- One iteration of `BoundedProcessor2.Run` from the sources: read a
request; only if it is a `*ColoredReq` reassign `factor` by its color
(color `0` is the slow one here); wait `factor * serviceTime`; always
terminate. -/
def bounded2Step (s : BState) (req : BReq) : BState :=
  let f := match req with
    | .colored c _ => colorRule2 c
    | .other _ => s.factor
  let w := f * req.req.getServiceTime
  { factor := f, now := s.now + w, waits := s.waits ++ [w]
    forwarded := s.forwarded, terminated := s.terminated ++ [(req, s.now + w)] }

/-- Run `BoundedProcessor2` over a list of requests. -/
def bounded2Run : List BReq → BState → BState
  | [], s => s
  | req :: rest, s => bounded2Run rest (bounded2Step s req)

/-- Initial state of a bounded run: Go's `var factor float64` starts at
`0.0`; nothing waited, forwarded or terminated. -/
def bInit : BState :=
  { factor := 0, now := 0, waits := [], forwarded := [], terminated := [] }

/-- The multiplier left in the `factor` variable after serving a list of
requests, as a function of the request list alone: the rule applied to
the color of the most recent `*ColoredReq`, and the initial value `f0`
when no colored request has been served. -/
def staleFactor (rule : ℤ → ℚ) (f0 : ℚ) (l : List BReq) : ℚ :=
  match (l.filterMap BReq.colorOf).getLast? with
  | some c => rule c
  | none => f0

/-- The sequence of waits a bounded processor charges over a request
list, carrying the `factor` variable with initial value `f0`. -/
def waitsFrom (rule : ℤ → ℚ) (f0 : ℚ) : List BReq → List ℚ
  | [] => []
  | req :: rest =>
    let f := match req.colorOf with
      | some c => rule c
      | none => f0
    f * req.req.getServiceTime :: waitsFrom rule f rest

/-! ## The SRPT time-sharing processor over the priority queue -/

/-- Modelled from the spec: the `GetCmpVal` implementation on requests
is not in the sources; the priority queue is "keyed by remaining
service time" in SRPT usage, so a request's comparison key is its
remaining service time. -/
def Request.getCmpVal (r : Request) : ℚ := r.serviceTime

/-- Modelled from the spec: the `GetInitTime` implementation on
requests is not in the sources; it exposes the request's `InitTime`
(its arrival time), used by `pQueue.Less` to break ties. -/
def Request.getInitTime (r : Request) : ℚ := r.initTime

/-- `pQueue.Less` instantiated at requests: compare remaining service
times, tie-break by earlier init time. -/
def srptLess : Request → Request → Bool :=
  pqLess Request.getCmpVal Request.getInitTime

/-- State of a `SrptTSProcessor` together with its priority input
queue (the `pQueue` backing slice), mirroring `TSState`. -/
structure SrptState where
  queue : List Request
  now : ℚ
  terminated : List (Request × ℚ)
  deriving DecidableEq, Repr

/-- One iteration of `SrptTSProcessor.Run` from the sources, reading
from and re-enqueueing into the priority queue: dequeue via `heap.Pop`;
terminate within a quantum, else subtract the quantum and `heap.Push`
the request back.  An empty queue blocks. -/
def srptStep (quantum ctxCost : ℚ) (s : SrptState) : SrptState :=
  match heapPop srptLess s.queue with
  | none => s
  | some (req, rest) =>
    if req.getServiceTime ≤ quantum then
      { queue := rest
        now := s.now + (req.getServiceTime + ctxCost)
        terminated := s.terminated ++ [(req, s.now + (req.getServiceTime + ctxCost))] }
    else
      { queue := heapPush srptLess rest (req.subServiceTime quantum)
        now := s.now + (quantum + ctxCost)
        terminated := s.terminated }

/-- Apply one `TSEvent` to an `SrptState`; a generator arrival goes
through `PQueue.Enqueue`, i.e. `heap.Push`. -/
def srptApply (quantum ctxCost : ℚ) (e : TSEvent) (s : SrptState) : SrptState :=
  match e with
  | .dispatch => srptStep quantum ctxCost s
  | .arrive t service => { s with queue := heapPush srptLess s.queue (newRequest t service) }

/-- All states an SRPT run passes through (initial state included). -/
def srptTrace (quantum ctxCost : ℚ) : List TSEvent → SrptState → List SrptState
  | [], s => [s]
  | e :: es, s => s :: srptTrace quantum ctxCost es (srptApply quantum ctxCost e s)

/-- The `pQueue` backing slice of a `PQueue` after a sequence of
`Enqueue` calls starting from the empty queue of `NewPQueue`. -/
def pqFromList (es : List ReqElem) : List ReqElem :=
  es.foldl (fun q el => (PQueue.enqueue q el).1) []

/-! ## The run-to-completion processor (`RTCProcessor`) -/

/-- One iteration of `RTCProcessor.Run` from the sources: read a
request, wait its full remaining service time plus the context cost,
terminate it.  The service time is never mutated. -/
def rtcStep (ctxCost : ℚ) (s : TSState) : TSState :=
  match s.queue with
  | [] => s
  | req :: rest =>
    let t := s.now + (req.getServiceTime + ctxCost)
    { queue := rest
      now := t
      terminated := s.terminated ++ [(req, t)]
      dispatches := s.dispatches + 1
      reenqueues := s.reenqueues }

/-- Apply one `TSEvent` to an RTC processor's state. -/
def rtcApply (ctxCost : ℚ) (e : TSEvent) (s : TSState) : TSState :=
  match e with
  | .dispatch => rtcStep ctxCost s
  | .arrive t service => { s with queue := s.queue ++ [newRequest t service] }

/-- All states an RTC run passes through (initial state included). -/
def rtcTrace (ctxCost : ℚ) : List TSEvent → TSState → List TSState
  | [], s => [s]
  | e :: es, s => s :: rtcTrace ctxCost es (rtcApply ctxCost e s)

/-! ## Invariant predicates -/

/-- The specified request invariant: the remaining service time lies
between `0` and the original service time. -/
def reqOK (r : Request) : Prop :=
  0 ≤ r.serviceTime ∧ r.serviceTime ≤ r.originalServiceTime

instance (r : Request) : Decidable (reqOK r) := by
  unfold reqOK
  infer_instance

/-- All queued and all terminated requests of a TS (or RTC) state
satisfy the request invariant. -/
def tsStateOK (s : TSState) : Prop :=
  (∀ r ∈ s.queue, reqOK r) ∧ (∀ rt ∈ s.terminated, reqOK rt.1)

instance (s : TSState) : Decidable (tsStateOK s) := by
  unfold tsStateOK
  infer_instance

/-- All queued and all terminated requests of an SRPT state satisfy the
request invariant. -/
def srptStateOK (s : SrptState) : Prop :=
  (∀ r ∈ s.queue, reqOK r) ∧ (∀ rt ∈ s.terminated, reqOK rt.1)

instance (s : SrptState) : Decidable (srptStateOK s) := by
  unfold srptStateOK
  infer_instance

/-- All in-progress and all terminated requests of a PS state satisfy
the request invariant. -/
def psStateOK (s : PSState) : Prop :=
  (∀ r ∈ s.proc.reqList, reqOK r) ∧ (∀ rt ∈ s.terminated, reqOK rt.1)

instance (s : PSState) : Decidable (psStateOK s) := by
  unfold psStateOK
  infer_instance

/-- A well-formed event: arrivals carry a non-negative sampled service
time (distribution samples are non-negative). -/
def eventOK (e : TSEvent) : Prop :=
  match e with
  | .dispatch => True
  | .arrive _ service => 0 ≤ service

instance (e : TSEvent) : Decidable (eventOK e) := by
  unfold eventOK
  cases e <;> infer_instance

/-- Inductive invariant of a PS run used for the full-rate completion
property: `prevTime` tracks `now`; and as long as the sharing factor
has been `1` at every use, every in-progress request has consumed
virtual time at rate one since its arrival, the armed timer is the
predicted completion instant of the request `curr` points to, and every
terminated request completed at `init_time + original_service_time`. -/
def psInvC2 (s : PSState) : Prop :=
  s.proc.prevTime = s.now ∧
  (s.factorOne = true →
    (∀ r ∈ s.proc.reqList,
      r.serviceTime = r.originalServiceTime - (s.now - r.initTime)) ∧
    (∀ T, s.timer = some T → ∃ h : s.proc.curr < s.proc.reqList.length,
      T = s.now + (s.proc.reqList.get ⟨s.proc.curr, h⟩).serviceTime) ∧
    (∀ rt ∈ s.terminated, rt.2 = rt.1.initTime + rt.1.originalServiceTime))

/-- Inductive invariant of a PS run used for the service-time bounds:
`prevTime` tracks `now`, at least one worker, `count` matches the list
length, all live and terminated requests satisfy the request invariant,
pending arrivals lie in the future in non-decreasing order with
non-negative service samples, an armed timer lies in the future and
never over-consumes any in-progress request, and no timer means no
in-progress requests. -/
def psInvC5 (s : PSState) : Prop :=
  s.proc.prevTime = s.now ∧
  1 ≤ s.proc.workerCount ∧
  s.proc.count = (s.proc.reqList.length : ℤ) ∧
  (∀ r ∈ s.proc.reqList, reqOK r) ∧
  (∀ rt ∈ s.terminated, reqOK rt.1) ∧
  (∀ a ∈ s.arrivals, s.now ≤ a.time ∧ 0 ≤ a.service) ∧
  s.arrivals.Pairwise (fun a b => a.time ≤ b.time) ∧
  (∀ T, s.timer = some T → s.now ≤ T ∧
    ∀ r ∈ s.proc.reqList, (T - s.now) * s.proc.getFactor ≤ r.serviceTime) ∧
  (s.timer = none → s.proc.reqList = [])

/-! # Theorems -/

/-- With a positive concurrent-request count, `getFactor` is exactly
`min 1 (workerCount / count)`. -/
theorem getFactor_eq_min (p : PSProcessor) (hc : 0 < p.count) :
    p.getFactor = min 1 ((p.workerCount : ℚ) / (p.count : ℚ)) := by
  have hcq : (0 : ℚ) < (p.count : ℚ) := by exact_mod_cast hc
  unfold PSProcessor.getFactor
  split
  · rename_i hgt
    have h1 : (1 : ℚ) ≤ (p.workerCount : ℚ) / (p.count : ℚ) := by
      rw [le_div_iff₀ hcq, one_mul]
      exact_mod_cast le_of_lt hgt
    exact (min_eq_left h1).symm
  · rename_i hle
    have h1 : (p.workerCount : ℚ) / (p.count : ℚ) ≤ 1 := by
      rw [div_le_one hcq]
      exact_mod_cast not_lt.mp hle
    exact (min_eq_right h1).symm

/-- C1: whenever `updateServiceTimes` runs with a positive concurrent
count, it subtracts exactly `delta = (now - prev_time) * f` from the
remaining service time of every in-progress request, with
`f = min(1, workerCount/count)`, sets `prev_time := now`, and changes
no other request field and no other processor field. -/
theorem psProcessor_updateServiceTimes_spec (p : PSProcessor) (now : ℚ)
    (hc : 0 < p.count) :
    p.updateServiceTimes now =
      { p with
        prevTime := now
        reqList := p.reqList.map (fun r =>
          { initTime := r.initTime
            serviceTime :=
              r.serviceTime -
                (now - p.prevTime) * min 1 ((p.workerCount : ℚ) / (p.count : ℚ))
            originalServiceTime := r.originalServiceTime }) } := by
  unfold PSProcessor.updateServiceTimes
  rw [getFactor_eq_min p hc]
  rfl

/-- Witness for C1 at a concrete processor: two workers, two requests'
worth of count, one in-progress request with remaining time `5`,
previous update at time `1`, updated at time `3`; the sharing factor is
`1` and the remaining time drops by `2`. -/
theorem psProcessor_updateServiceTimes_spec_witness :
    (0 : ℤ) < 2 ∧
      PSProcessor.updateServiceTimes
          { workerCount := 2, count := 2, reqList := [⟨0, 5, 5⟩], curr := 0, prevTime := 1 } 3 =
        { workerCount := 2, count := 2, reqList := [⟨0, 3, 5⟩], curr := 0, prevTime := 3 } := by
  refine ⟨by decide, ?_⟩
  have h := psProcessor_updateServiceTimes_spec
    { workerCount := 2, count := 2, reqList := [⟨0, 5, 5⟩], curr := 0, prevTime := 1 } 3
    (by decide)
  rw [h]
  norm_num

/-- C8: a second `updateServiceTimes` at an unchanged engine clock
subtracts zero from every in-progress request and leaves the whole
processor state (the `prevTime` field included) unchanged. -/
theorem psProcessor_updateServiceTimes_idempotent (p : PSProcessor) (now : ℚ) :
    (p.updateServiceTimes now).updateServiceTimes now = p.updateServiceTimes now := by
  unfold PSProcessor.updateServiceTimes
  simp [Request.subServiceTime]

/-- C3: a single TS processor with quantum `10` and context cost `1`
serving exactly one request of service time `25` (first dispatched at
time `t0`, no other arrivals) dispatches it three times, re-enqueues it
onto its own input queue twice, and terminates it at `t0 + 28`, i.e. 28
virtual-time units after the first dispatch; the waits are `10+1`,
`10+1` and `5+1`. -/
theorem ts_single_request_quantum10_ctx1 (t0 : ℚ) :
    (tsExec 10 1 [.dispatch, .dispatch, .dispatch]
      (tsInit [newRequest t0 25] t0)).dispatches = 3 ∧
    (tsExec 10 1 [.dispatch, .dispatch, .dispatch]
      (tsInit [newRequest t0 25] t0)).reenqueues = 2 ∧
    (tsExec 10 1 [.dispatch, .dispatch, .dispatch]
      (tsInit [newRequest t0 25] t0)).terminated =
      [({ initTime := t0, serviceTime := 5, originalServiceTime := 25 }, t0 + 28)] ∧
    (tsExec 10 1 [.dispatch, .dispatch, .dispatch]
      (tsInit [newRequest t0 25] t0)).queue = [] ∧
    (tsExec 10 1 [.dispatch, .dispatch, .dispatch]
      (tsInit [newRequest t0 25] t0)).now = t0 + (10 + 1) + (10 + 1) + (5 + 1) := by
  norm_num [tsExec, tsApply, tsStep, tsInit, newRequest, Request.getServiceTime,
    Request.subServiceTime, Prod.ext_iff, Request.mk.injEq]
  ring

/-- C7: `SrptTSProcessor.Run` and `TSProcessor.Run` compute identical
behaviour: over the same abstract input queue (any dequeue/enqueue
implementation), the same quantum and context cost, both emit exactly
the same sequence of reads, waits, service-time subtractions,
re-enqueues and drain terminations, and leave the queue in the same
state; the SRPT policy differs from TS only through the queue it is
attached to. -/
theorem srptRun_eq_tsRun {Q : Type} (deq : Q → Option (Request × Q))
    (enq : Q → Request → Q) (quantum ctxCost : ℚ) (fuel : ℕ) (q : Q) :
    srptRunTrace deq enq quantum ctxCost fuel q =
      tsRunTrace deq enq quantum ctxCost fuel q := by
  induction fuel generalizing q with
  | zero => rfl
  | succ n ih =>
    simp only [srptRunTrace, tsRunTrace]
    cases deq q with
    | none => rfl
    | some rq =>
      obtain ⟨req, q1⟩ := rq
      by_cases h : req.getServiceTime ≤ quantum <;> simp [h, ih]

/-- C6 (code bug): at the single recorded request with delay `3`,
`AllKeeper.std`'s radicand evaluates to `9/1 - 3 = 6`, while the
standard deviation of the delays (mean of squares minus the square of
the mean) has radicand `9/1 - 9 = 0`: the code subtracts the mean
where the square of the mean is required. -/
theorem allKeeper_std_radicand_bug :
    AllKeeper.stdRadicand [{ serviceTime := 10, delay := 3 }] = 6 ∧
    AllKeeper.specStdRadicand [{ serviceTime := 10, delay := 3 }] = 0 ∧
    AllKeeper.stdRadicand [{ serviceTime := 10, delay := 3 }] ≠
      AllKeeper.specStdRadicand [{ serviceTime := 10, delay := 3 }] := by
  norm_num [AllKeeper.stdRadicand, AllKeeper.specStdRadicand, AllKeeper.avg]

/-- `staleFactor` peels off the head request: the most recent colored
request in `b :: l` is the most recent one in `l`, with the fallback
updated by `b`'s color. -/
theorem staleFactor_cons (rule : ℤ → ℚ) (f0 : ℚ) (b : BReq) (l : List BReq) :
    staleFactor rule f0 (b :: l) =
      staleFactor rule
        (match b.colorOf with
          | some c => rule c
          | none => f0) l := by
  unfold staleFactor
  cases b with
  | colored c r =>
    simp only [List.filterMap_cons, BReq.colorOf]
    cases hcl : (l.filterMap BReq.colorOf) with
    | nil => simp
    | cons c2 cs =>
      rw [List.getLast?_cons_cons]
      cases h2 : (c2 :: cs).getLast? with
      | none => exact absurd h2 (by simp)
      | some x => simp
  | other r => simp [List.filterMap_cons, BReq.colorOf]

/-- The `i`-th wait a bounded processor charges equals the stale factor
of the prefix of requests up to and including the `i`-th, times that
request's remaining service time. -/
theorem waitsFrom_get (rule : ℤ → ℚ) :
    ∀ (l : List BReq) (f0 : ℚ) (i : ℕ) (hi : i < l.length),
      (waitsFrom rule f0 l)[i]? =
        some (staleFactor rule f0 (l.take (i + 1)) *
          ((l.get ⟨i, hi⟩).req.getServiceTime : ℚ))
  | [], _, i, hi => absurd hi (by simp)
  | req :: rest, f0, 0, _ => by
    rw [List.take_succ_cons, List.take_zero, staleFactor_cons]
    cases req with
    | colored c r => simp [waitsFrom, staleFactor, BReq.colorOf]
    | other r => simp [waitsFrom, staleFactor, BReq.colorOf]
  | req :: rest, f0, i + 1, hi => by
    have hr : i < rest.length := by simpa using hi
    simp only [waitsFrom, List.getElem?_cons_succ, List.take_succ_cons, staleFactor_cons,
      List.get_eq_getElem, List.getElem_cons_succ]
    have h := waitsFrom_get rule rest
      (match req.colorOf with
        | some c => rule c
        | none => f0) i hr
    simpa using h

/-- `BoundedProcessor.Run`'s waits over any inputs, with the carried
`factor` made explicit. -/
theorem boundedRun_waits (bufSize : ℤ) :
    ∀ (inputs : List (BReq × ℤ)) (s : BState),
      (boundedRun bufSize inputs s).waits =
        s.waits ++ waitsFrom colorRule1 s.factor (inputs.map Prod.fst)
  | [], s => by simp [boundedRun, waitsFrom]
  | (req, qlen) :: rest, s => by
    rw [List.map_cons]
    show (boundedRun bufSize rest (boundedStep bufSize s req qlen)).waits = _
    rw [boundedRun_waits bufSize rest (boundedStep bufSize s req qlen)]
    cases req with
    | colored c r =>
      by_cases h : qlen < bufSize <;>
        simp [boundedStep, waitsFrom, BReq.colorOf, BReq.req, h]
    | other r =>
      by_cases h : qlen < bufSize <;>
        simp [boundedStep, waitsFrom, BReq.colorOf, BReq.req, h]

/-- `BoundedProcessor2.Run`'s waits over any inputs, with the carried
`factor` made explicit. -/
theorem bounded2Run_waits :
    ∀ (reqs : List BReq) (s : BState),
      (bounded2Run reqs s).waits = s.waits ++ waitsFrom colorRule2 s.factor reqs
  | [], s => by simp [bounded2Run, waitsFrom]
  | req :: rest, s => by
    show (bounded2Run rest (bounded2Step s req)).waits = _
    rw [bounded2Run_waits rest (bounded2Step s req)]
    cases req with
    | colored c r => simp [bounded2Step, waitsFrom, BReq.colorOf, BReq.req]
    | other r => simp [bounded2Step, waitsFrom, BReq.colorOf, BReq.req]

/-- C10: in `BoundedProcessor.Run` and `BoundedProcessor2.Run` the
multiplier is reassigned only for `*ColoredReq`s, so the `i`-th request
waits `factor * serviceTime` with the factor of the most recent colored
request at or before position `i` (each `Run` with its own color rule),
and `0.0` — hence a zero wait — when no colored request has been
dispatched yet. -/
theorem boundedProcessors_stale_factor (bufSize : ℤ) (inputs : List (BReq × ℤ))
    (reqs2 : List BReq) (i j : ℕ) (hi : i < inputs.length) (hj : j < reqs2.length) :
    ((boundedRun bufSize inputs bInit).waits[i]? =
      some (staleFactor colorRule1 0 ((inputs.map Prod.fst).take (i + 1)) *
        ((inputs.get ⟨i, hi⟩).1.req.getServiceTime : ℚ))) ∧
    ((bounded2Run reqs2 bInit).waits[j]? =
      some (staleFactor colorRule2 0 (reqs2.take (j + 1)) *
        ((reqs2.get ⟨j, hj⟩).req.getServiceTime : ℚ))) ∧
    (((inputs.map Prod.fst).take (i + 1)).filterMap BReq.colorOf = [] →
      (boundedRun bufSize inputs bInit).waits[i]? = some 0) := by
  have hi2 : i < (inputs.map Prod.fst).length := by simpa using hi
  have h1 : (boundedRun bufSize inputs bInit).waits[i]? =
      some (staleFactor colorRule1 0 ((inputs.map Prod.fst).take (i + 1)) *
        (((inputs.map Prod.fst).get ⟨i, hi2⟩).req.getServiceTime : ℚ)) := by
    rw [boundedRun_waits]
    show (waitsFrom colorRule1 bInit.factor (inputs.map Prod.fst))[i]? = _
    rw [waitsFrom_get colorRule1 (inputs.map Prod.fst) bInit.factor i hi2]
    rfl
  refine ⟨?_, ?_, ?_⟩
  · rw [h1]
    congr 2
    simp
  · rw [bounded2Run_waits]
    show (waitsFrom colorRule2 bInit.factor reqs2)[j]? = _
    rw [waitsFrom_get colorRule2 reqs2 bInit.factor j hj]
    rfl
  · intro hnone
    rw [h1]
    unfold staleFactor
    rw [hnone]
    simp

/-- Witness for C10: a non-colored request dispatched first (before any
colored one) is charged a zero wait despite a positive service time;
after a colored request with color `1`, a later non-colored request is
charged the stale `2` multiplier. -/
theorem boundedProcessors_stale_factor_witness :
    (0 : ℕ) < 3 ∧
      (boundedRun 1
        [(.other ⟨0, 5, 5⟩, 0), (.colored 1 ⟨0, 3, 3⟩, 0), (.other ⟨0, 7, 7⟩, 0)]
        bInit).waits[0]? = some 0 ∧
      (bounded2Run [.colored 3 ⟨0, 4, 4⟩] bInit).waits[0]? = some 4 := by
  have h := boundedProcessors_stale_factor 1
    [(.other ⟨0, 5, 5⟩, 0), (.colored 1 ⟨0, 3, 3⟩, 0), (.other ⟨0, 7, 7⟩, 0)]
    [.colored 3 ⟨0, 4, 4⟩] 0 0 (by decide) (by decide)
  refine ⟨by decide, ?_, ?_⟩
  · rw [h.1]
    norm_num [staleFactor, BReq.colorOf, List.filterMap]
  · rw [h.2.1]
    norm_num [staleFactor, BReq.colorOf, List.filterMap, colorRule2, BReq.req,
      Request.getServiceTime]

/-! ### Heap lemmas -/

/-- `swapL` keeps the length. -/
theorem swapL_length {α : Type} (l : List α) (i j : ℕ) :
    (swapL l i j).length = l.length := by
  unfold swapL
  cases l[i]? <;> cases l[j]? <;> simp

/-- The elements of a swap, by index. -/
theorem swapL_getElem? {α : Type} (l : List α) (i j k : ℕ) (hi : i < l.length)
    (hj : j < l.length) (hk : k < l.length) :
    (swapL l i j)[k]? =
      if j = k then some (l.get ⟨i, hi⟩)
      else if i = k then some (l.get ⟨j, hj⟩)
      else some (l.get ⟨k, hk⟩) := by
  unfold swapL
  rw [List.getElem?_eq_getElem hi, List.getElem?_eq_getElem hj]
  simp only [List.getElem?_set, List.length_set, List.get_eq_getElem]
  split_ifs <;> simp_all [List.getElem?_eq_getElem]

/-- A swap is a permutation. -/
theorem swapL_perm {α : Type} [DecidableEq α] (l : List α) (i j : ℕ) :
    (swapL l i j).Perm l := by
  unfold swapL
  cases hi : l[i]? with
  | none => exact List.Perm.refl l
  | some a =>
    cases hj : l[j]? with
    | none => exact List.Perm.refl l
    | some b =>
      obtain ⟨hi', hia⟩ := List.getElem?_eq_some_iff.mp hi
      obtain ⟨hj', hjb⟩ := List.getElem?_eq_some_iff.mp hj
      rw [List.perm_iff_count]
      intro x
      have hj2 : j < (l.set i b).length := by simpa using hj'
      rw [List.count_set a x (l.set i b) j hj2, List.count_set b x l i hi']
      have hmem : a ∈ l := by
        rw [← hia]
        exact List.getElem_mem hi'
      have hcount : a = x → 0 < l.count x := by
        intro hax
        exact List.count_pos_iff.mpr (hax ▸ hmem)
      by_cases hij : i = j <;>
        simp only [List.getElem_set, hij, hia, hjb, beq_iff_eq, if_true, if_false] <;>
        by_cases hax : a = x <;> by_cases hbx : b = x <;> simp_all

/-- The chosen child is at least the left child. -/
theorem downChild_ge {α : Type} [Inhabited α] (lt : α → α → Bool) (l : List α)
    (j1 n : ℕ) : j1 ≤ downChild lt l j1 n := by
  unfold downChild
  split <;> omega

/-- The chosen child is below the bound when the left child is. -/
theorem downChild_lt {α : Type} [Inhabited α] (lt : α → α → Bool) (l : List α)
    (j1 n : ℕ) (h : j1 < n) : downChild lt l j1 n < n := by
  unfold downChild
  split
  · rename_i hc
    rw [Bool.and_eq_true, decide_eq_true_eq] at hc
    exact hc.1
  · exact h

/-- `siftUp` keeps the length. -/
theorem siftUp_length {α : Type} [Inhabited α] (lt : α → α → Bool) :
    ∀ (j : ℕ) (l : List α), (siftUp lt l j).length = l.length := by
  intro j
  induction j using Nat.strong_induction_on with
  | _ j IH =>
    intro l
    rw [siftUp]
    split
    · rfl
    · rename_i hj0
      dsimp only
      split
      · rw [IH ((j - 1) / 2) (by omega), swapL_length]
      · rfl

/-- `siftUp` permutes the list. -/
theorem siftUp_perm {α : Type} [Inhabited α] [DecidableEq α] (lt : α → α → Bool) :
    ∀ (j : ℕ) (l : List α), (siftUp lt l j).Perm l := by
  intro j
  induction j using Nat.strong_induction_on with
  | _ j IH =>
    intro l
    rw [siftUp]
    split
    · exact List.Perm.refl l
    · rename_i hj0
      dsimp only
      split
      · exact (IH ((j - 1) / 2) (by omega) (swapL l ((j - 1) / 2) j)).trans
          (swapL_perm l ((j - 1) / 2) j)
      · exact List.Perm.refl l

/-- `siftDown` keeps the length. -/
theorem siftDown_length {α : Type} [Inhabited α] (lt : α → α → Bool) (n : ℕ) :
    ∀ (m i : ℕ) (l : List α), n - i ≤ m → (siftDown lt l i n).length = l.length := by
  intro m
  induction m with
  | zero =>
    intro i l hm
    rw [siftDown]
    split
    · rename_i h1
      omega
    · rfl
  | succ m IH =>
    intro i l hm
    rw [siftDown]
    split
    · rename_i h1
      dsimp only
      split
      · rw [IH (downChild lt l (2 * i + 1) n)
          (swapL l i (downChild lt l (2 * i + 1) n)) ?_, swapL_length]
        have := downChild_ge lt l (2 * i + 1) n
        omega
      · rfl
    · rfl

/-- `siftDown` permutes the list. -/
theorem siftDown_perm {α : Type} [Inhabited α] [DecidableEq α] (lt : α → α → Bool)
    (n : ℕ) : ∀ (m i : ℕ) (l : List α), n - i ≤ m → (siftDown lt l i n).Perm l := by
  intro m
  induction m with
  | zero =>
    intro i l hm
    rw [siftDown]
    split
    · rename_i h1
      omega
    · exact List.Perm.refl l
  | succ m IH =>
    intro i l hm
    rw [siftDown]
    split
    · rename_i h1
      dsimp only
      split
      · refine (IH (downChild lt l (2 * i + 1) n)
          (swapL l i (downChild lt l (2 * i + 1) n)) ?_).trans
          (swapL_perm l i (downChild lt l (2 * i + 1) n))
        have := downChild_ge lt l (2 * i + 1) n
        omega
      · exact List.Perm.refl l
    · exact List.Perm.refl l

/-- A swap leaves every position other than the two swapped ones
unchanged. -/
theorem swapL_getElem?_ne {α : Type} (l : List α) (i j k : ℕ) (hki : k ≠ i)
    (hkj : k ≠ j) : (swapL l i j)[k]? = l[k]? := by
  unfold swapL
  cases l[i]? with
  | none => rfl
  | some a =>
    cases l[j]? with
    | none => rfl
    | some b =>
      have h1 : j ≠ k := fun h => hkj h.symm
      have h2 : i ≠ k := fun h => hki h.symm
      simp [List.getElem?_set, h1, h2]

/-- `siftDown` below bound `n` never touches positions at or above `n`. -/
theorem siftDown_getElem?_ge {α : Type} [Inhabited α] (lt : α → α → Bool) (n : ℕ) :
    ∀ (m i : ℕ) (l : List α), n - i ≤ m → ∀ k, n ≤ k →
      (siftDown lt l i n)[k]? = l[k]? := by
  intro m
  induction m with
  | zero =>
    intro i l hm k hk
    rw [siftDown]
    split
    · rename_i h1
      omega
    · rfl
  | succ m IH =>
    intro i l hm k hk
    rw [siftDown]
    split
    · rename_i h1
      dsimp only
      split
      · have hge := downChild_ge lt l (2 * i + 1) n
        have hlt := downChild_lt lt l (2 * i + 1) n h1
        rw [IH (downChild lt l (2 * i + 1) n)
          (swapL l i (downChild lt l (2 * i + 1) n)) (by omega) k hk]
        exact swapL_getElem?_ne l i (downChild lt l (2 * i + 1) n) k
          (by omega) (by omega)
      · rfl
    · rfl

/-- `pQueue.Less` holds exactly when the key is smaller, or the keys tie
and the init time is smaller. -/
theorem pqLess_eq_true_iff {α : Type} (cv iv : α → ℚ) (x y : α) :
    pqLess cv iv x y = true ↔ (cv x < cv y ∨ (cv x = cv y ∧ iv x < iv y)) := by
  unfold pqLess
  by_cases h : cv x = cv y <;> simp [h]

/-- `pQueue.Less` fails exactly when the other element is at least as
small in the lexicographic (key, init time) order. -/
theorem pqLess_eq_false_iff {α : Type} (cv iv : α → ℚ) (x y : α) :
    pqLess cv iv x y = false ↔ (cv y < cv x ∨ (cv x = cv y ∧ iv y ≤ iv x)) := by
  rw [← Bool.not_eq_true, pqLess_eq_true_iff]
  constructor
  · intro h
    push_neg at h
    obtain ⟨h1, h2⟩ := h
    rcases eq_or_lt_of_le h1 with heq | hgt
    · exact Or.inr ⟨heq.symm, h2 heq.symm⟩
    · exact Or.inl hgt
  · intro h
    push_neg
    constructor
    · rcases h with h | ⟨heq, _⟩
      · exact le_of_lt h
      · exact le_of_eq heq.symm
    · intro heq
      rcases h with h | ⟨_, hle⟩
      · exact absurd (heq ▸ h) (lt_irrefl _)
      · exact hle

/-- `pQueue.Less` is irreflexive. -/
theorem pqLess_irrefl {α : Type} (cv iv : α → ℚ) (a : α) :
    pqLess cv iv a a = false :=
  (pqLess_eq_false_iff cv iv a a).mpr (Or.inr ⟨rfl, le_refl _⟩)

/-- `pQueue.Less` is asymmetric. -/
theorem pqLess_asym {α : Type} (cv iv : α → ℚ) (a b : α)
    (h : pqLess cv iv a b = true) : pqLess cv iv b a = false := by
  rw [pqLess_eq_true_iff] at h
  rw [pqLess_eq_false_iff]
  rcases h with h | ⟨heq, hlt⟩
  · exact Or.inl h
  · exact Or.inr ⟨heq.symm, le_of_lt hlt⟩

/-- The complement of `pQueue.Less` is transitive. -/
theorem pqLess_le_trans {α : Type} (cv iv : α → ℚ) (a b c : α)
    (hba : pqLess cv iv b a = false) (hcb : pqLess cv iv c b = false) :
    pqLess cv iv c a = false := by
  rw [pqLess_eq_false_iff] at hba hcb ⊢
  rcases hba with h1 | ⟨h1, h2⟩ <;> rcases hcb with h3 | ⟨h3, h4⟩
  · exact Or.inl (h1.trans h3)
  · exact Or.inl (lt_of_lt_of_eq h1 h3.symm)
  · exact Or.inl (h1 ▸ h3)
  · exact Or.inr ⟨h3.trans h1, h2.trans h4⟩

/-- If every element of `l` is at least the root and the element at `j`
is at least its ancestors' floor, sifting up from `j` yields a list
whose root is a least element; stated over `getElem?` so that the index
bookkeeping stays propositional. -/
theorem siftUp_root_min {α : Type} [Inhabited α] (lt : α → α → Bool)
    (hirr : ∀ a, lt a a = false)
    (hasym : ∀ a b, lt a b = true → lt b a = false)
    (htrans : ∀ a b c, lt b a = false → lt c b = false → lt c a = false) :
    ∀ (j : ℕ) (l : List α), j < l.length →
      (∀ (k : ℕ) (xk r0 : α), l[k]? = some xk → l[0]? = some r0 → k ≠ j →
        lt xk r0 = false) →
      ∀ (k : ℕ) (xk r0 : α), (siftUp lt l j)[k]? = some xk →
        (siftUp lt l j)[0]? = some r0 → lt xk r0 = false := by
  intro j
  induction j using Nat.strong_induction_on with
  | _ j IH =>
    intro l hj hinv k xk r0 hk h0
    rw [siftUp] at hk h0
    by_cases hj0 : j = 0
    · rw [dif_pos hj0] at hk h0
      by_cases hk0 : k = 0
      · subst hk0
        rw [hk] at h0
        cases h0
        exact hirr xk
      · exact hinv k xk r0 hk h0 (fun h => hk0 (h.trans hj0))
    · rw [dif_neg hj0] at hk h0
      dsimp only at hk h0
      have hi : (j - 1) / 2 < l.length := by
        have : (j - 1) / 2 < j := by omega
        omega
      have hij : (j - 1) / 2 < j := by omega
      have hgdj : l.getD j default = l.get ⟨j, hj⟩ := by
        rw [List.getD_eq_getElem l default hj]
        rfl
      have hgdi : l.getD ((j - 1) / 2) default = l.get ⟨(j - 1) / 2, hi⟩ := by
        rw [List.getD_eq_getElem l default hi]
        rfl
      by_cases hsw : lt (l.getD j default) (l.getD ((j - 1) / 2) default) = true
      · rw [if_pos hsw] at hk h0
        rw [hgdj, hgdi] at hsw
        refine IH ((j - 1) / 2) hij (swapL l ((j - 1) / 2) j)
          (by rw [swapL_length]; exact hi) ?_ k xk r0 hk h0
        intro k2 xk2 r02 hk2 h02 hk2i
        have hk2l : k2 < l.length := by
          obtain ⟨hlen, _⟩ := List.getElem?_eq_some_iff.mp hk2
          rwa [swapL_length] at hlen
        have h0l : 0 < l.length := by omega
        rw [swapL_getElem? l ((j - 1) / 2) j k2 hi hj hk2l] at hk2
        rw [swapL_getElem? l ((j - 1) / 2) j 0 hi hj h0l] at h02
        rw [if_neg hj0] at h02
        have hmemk2 : l[k2]? = some (l.get ⟨k2, hk2l⟩) :=
          List.getElem?_eq_getElem hk2l
        have hmem0 : l[0]? = some (l.get ⟨0, h0l⟩) :=
          List.getElem?_eq_getElem h0l
        have hmemi : l[(j - 1) / 2]? = some (l.get ⟨(j - 1) / 2, hi⟩) :=
          List.getElem?_eq_getElem hi
        by_cases hi0 : (j - 1) / 2 = 0
        · rw [if_pos hi0] at h02
          cases h02
          have hgeq : l.get ⟨(j - 1) / 2, hi⟩ = l.get ⟨0, h0l⟩ := by
            simp only [hi0]
          rw [hgeq] at hsw
          by_cases hjk2 : j = k2
          · rw [if_pos hjk2] at hk2
            cases hk2
            rw [hgeq]
            exact hasym _ _ hsw
          · rw [if_neg hjk2, if_neg (fun h => hk2i h.symm)] at hk2
            cases hk2
            have h1 : lt (l.get ⟨0, h0l⟩) (l.get ⟨j, hj⟩) = false := hasym _ _ hsw
            have h2 : lt (l.get ⟨k2, hk2l⟩) (l.get ⟨0, h0l⟩) = false :=
              hinv k2 _ _ hmemk2 hmem0 (fun h => hjk2 h.symm)
            exact htrans _ _ _ h1 h2
        · rw [if_neg hi0] at h02
          cases h02
          by_cases hjk2 : j = k2
          · rw [if_pos hjk2] at hk2
            cases hk2
            exact hinv ((j - 1) / 2) _ _ hmemi hmem0 (Nat.ne_of_lt hij)
          · rw [if_neg hjk2, if_neg (fun h => hk2i h.symm)] at hk2
            cases hk2
            exact hinv k2 _ _ hmemk2 hmem0 (fun h => hjk2 h.symm)
      · rw [if_neg hsw] at hk h0
        have hsw' : lt (l.get ⟨j, hj⟩) (l.get ⟨(j - 1) / 2, hi⟩) = false := by
          rw [← hgdj, ← hgdi]
          exact Bool.not_eq_true _ |>.mp hsw
        by_cases hkj : k = j
        · rw [hkj] at hk
          obtain ⟨_, hv⟩ := List.getElem?_eq_some_iff.mp hk
          have hxk : xk = l.get ⟨j, hj⟩ := hv.symm
          have h1 : lt (l.get ⟨(j - 1) / 2, hi⟩) r0 = false :=
            hinv ((j - 1) / 2) _ _ (List.getElem?_eq_getElem hi) h0 (Nat.ne_of_lt hij)
          rw [hxk]
          exact htrans _ _ _ h1 hsw'
        · exact hinv k xk r0 hk h0 hkj

/-- `heap.Push` permutes the inserted element into the list. -/
theorem heapPush_perm {α : Type} [Inhabited α] [DecidableEq α] (lt : α → α → Bool)
    (l : List α) (x : α) : (heapPush lt l x).Perm (x :: l) :=
  (siftUp_perm lt l.length (l ++ [x])).trans (List.perm_append_singleton x l)

/-- `heap.Push` preserves root-minimality with respect to `lt`. -/
theorem heapPush_root_min {α : Type} [Inhabited α] (lt : α → α → Bool)
    (hirr : ∀ a, lt a a = false)
    (hasym : ∀ a b, lt a b = true → lt b a = false)
    (htrans : ∀ a b c, lt b a = false → lt c b = false → lt c a = false)
    (l : List α) (x : α)
    (hl : ∀ (k : ℕ) (xk r0 : α), l[k]? = some xk → l[0]? = some r0 →
      lt xk r0 = false) :
    ∀ (k : ℕ) (xk r0 : α), (heapPush lt l x)[k]? = some xk →
      (heapPush lt l x)[0]? = some r0 → lt xk r0 = false := by
  unfold heapPush
  refine siftUp_root_min lt hirr hasym htrans l.length (l ++ [x]) (by simp) ?_
  intro k xk r0 hk h0 hkj
  have hkb : k < l.length + 1 := by
    obtain ⟨hb, _⟩ := List.getElem?_eq_some_iff.mp hk
    simpa using hb
  have hkl : k < l.length := by omega
  have h0l : 0 < l.length := by omega
  rw [List.getElem?_append_left hkl] at hk
  rw [List.getElem?_append_left h0l] at h0
  exact hl k xk r0 hk h0

/-- Any sequence of `PQueue.Enqueue` calls keeps the backing slice
root-minimal with respect to `pQueue.Less`. -/
theorem pqFold_root_min :
    ∀ (es : List ReqElem) (q : List ReqElem),
      (∀ (k : ℕ) (xk r0 : ReqElem), q[k]? = some xk → q[0]? = some r0 →
        pqLess ReqElem.cmpVal ReqElem.initTime xk r0 = false) →
      ∀ (k : ℕ) (xk r0 : ReqElem),
        (es.foldl (fun q el => (PQueue.enqueue q el).1) q)[k]? = some xk →
        (es.foldl (fun q el => (PQueue.enqueue q el).1) q)[0]? = some r0 →
        pqLess ReqElem.cmpVal ReqElem.initTime xk r0 = false
  | [], q, hq => hq
  | el :: es, q, hq => by
    rw [List.foldl_cons]
    refine pqFold_root_min es _ ?_
    unfold PQueue.enqueue
    by_cases hc : el.isComparable
    · rw [if_pos hc]
      exact heapPush_root_min _ (pqLess_irrefl _ _) (pqLess_asym _ _) (pqLess_le_trans _ _)
        q el hq
    · rw [if_neg hc]
      exact hq

/-- When every enqueued element is comparable, the backing slice is a
permutation of the enqueued elements. -/
theorem pqFold_perm :
    ∀ (es : List ReqElem) (q : List ReqElem),
      (∀ el ∈ es, el.isComparable = true) →
      (es.foldl (fun q el => (PQueue.enqueue q el).1) q).Perm (q ++ es)
  | [], q, _ => by simp
  | el :: es, q, hcmp => by
    rw [List.foldl_cons]
    have h1 : ((PQueue.enqueue q el).1).Perm (el :: q) := by
      unfold PQueue.enqueue
      rw [if_pos (hcmp el (List.mem_cons_self el es))]
      exact heapPush_perm _ q el
    have h2 := pqFold_perm es (PQueue.enqueue q el).1
      (fun e he => hcmp e (List.mem_cons_of_mem el he))
    refine h2.trans ?_
    refine (h1.append_right es).trans ?_
    exact List.perm_middle.symm

/-- `heap.Pop` on a non-empty list returns the root (a least element
under the heap invariant) and permutes the rest. -/
theorem heapPop_root {α : Type} [Inhabited α] [DecidableEq α] (lt : α → α → Bool)
    (l : List α) (hne : l ≠ []) :
    ∃ rest, heapPop lt l = some (l.get ⟨0, List.length_pos_of_ne_nil hne⟩, rest) ∧
      (l.get ⟨0, List.length_pos_of_ne_nil hne⟩ :: rest).Perm l := by
  have h0l : 0 < l.length := List.length_pos_of_ne_nil hne
  have hn : l.length - 1 < l.length := by omega
  have hl2len : (siftDown lt (swapL l 0 (l.length - 1)) 0 (l.length - 1)).length
      = l.length := by
    rw [siftDown_length lt (l.length - 1) (l.length - 1) 0 _ (by omega), swapL_length]
  have hlast : (siftDown lt (swapL l 0 (l.length - 1)) 0 (l.length - 1)).getLast?
      = some (l.get ⟨0, h0l⟩) := by
    rw [List.getLast?_eq_getElem?, hl2len]
    rw [siftDown_getElem?_ge lt (l.length - 1) (l.length - 1) 0 _ (by omega)
      (l.length - 1) (le_refl _)]
    rw [swapL_getElem? l 0 (l.length - 1) (l.length - 1) h0l hn hn]
    rw [if_pos rfl]
  have hperm : (siftDown lt (swapL l 0 (l.length - 1)) 0 (l.length - 1)).Perm l := by
    refine (siftDown_perm lt (l.length - 1) (l.length - 1) 0 _ (by omega)).trans ?_
    exact swapL_perm l 0 (l.length - 1)
  refine ⟨(siftDown lt (swapL l 0 (l.length - 1)) 0 (l.length - 1)).dropLast, ?_, ?_⟩
  · cases l with
    | nil => exact absurd rfl hne
    | cons a as =>
      unfold heapPop
      dsimp only
      rw [hlast]
  · have hsplit := List.dropLast_append_getLast?
      (l.get ⟨0, h0l⟩) (by rw [hlast]; rfl)
    have hstep : (l.get ⟨0, h0l⟩ ::
        (siftDown lt (swapL l 0 (l.length - 1)) 0 (l.length - 1)).dropLast).Perm
          ((siftDown lt (swapL l 0 (l.length - 1)) 0 (l.length - 1)).dropLast
            ++ [l.get ⟨0, h0l⟩]) :=
      (List.perm_append_singleton _ _).symm
    rw [hsplit] at hstep
    exact hstep.trans hperm

/-- C4: for every non-empty priority queue built by a sequence of
`PQueue.Enqueue` calls, `PQueue.Dequeue` returns an element whose
comparison key (`GetCmpVal`) is minimal among all queued elements, and
among the elements sharing that minimal key one with the smallest
`InitTime`; the queue holds exactly the enqueued elements. -/
theorem pqueue_dequeue_returns_min (es : List ReqElem)
    (hcmp : ∀ el ∈ es, el.isComparable = true) (hne : pqFromList es ≠ []) :
    ∃ r rest, PQueue.dequeue (pqFromList es) = some (r, rest) ∧
      r ∈ pqFromList es ∧ (pqFromList es).Perm es ∧
      ∀ x ∈ pqFromList es,
        r.cmpVal ≤ x.cmpVal ∧ (x.cmpVal = r.cmpVal → r.initTime ≤ x.initTime) := by
  obtain ⟨rest, hdq, hperm⟩ :=
    heapPop_root (pqLess ReqElem.cmpVal ReqElem.initTime) (pqFromList es) hne
  refine ⟨_, rest, hdq, List.get_mem _ _ _, ?_, ?_⟩
  · have h := pqFold_perm es [] hcmp
    simpa using h
  · intro x hx
    obtain ⟨k, hk⟩ := List.mem_iff_getElem?.mp hx
    have h0 : (pqFromList es)[0]? =
        some ((pqFromList es).get ⟨0, List.length_pos_of_ne_nil hne⟩) :=
      List.getElem?_eq_getElem _
    have hvac : ∀ (k : ℕ) (xk r0 : ReqElem), ([] : List ReqElem)[k]? = some xk →
        ([] : List ReqElem)[0]? = some r0 →
        pqLess ReqElem.cmpVal ReqElem.initTime xk r0 = false := by
      intro k xk r0 h1 _
      simp at h1
    have hmin := pqFold_root_min es [] hvac k x
      ((pqFromList es).get ⟨0, List.length_pos_of_ne_nil hne⟩) hk h0
    rw [pqLess_eq_false_iff] at hmin
    constructor
    · rcases hmin with h | ⟨h, _⟩
      · exact le_of_lt h
      · exact le_of_eq h.symm
    · intro heq
      rcases hmin with h | ⟨_, h2⟩
      · exact absurd (heq ▸ h) (lt_irrefl _)
      · exact h2

/-- `heap.Push` grows the backing slice by one. -/
theorem heapPush_length {α : Type} [Inhabited α] (lt : α → α → Bool) (l : List α)
    (x : α) : (heapPush lt l x).length = l.length + 1 := by
  unfold heapPush
  rw [siftUp_length]
  simp

/-- Enqueueing comparable elements grows the backing slice one by one. -/
theorem pqFold_length :
    ∀ (es : List ReqElem) (q : List ReqElem), (∀ el ∈ es, el.isComparable = true) →
      (es.foldl (fun q el => (PQueue.enqueue q el).1) q).length = q.length + es.length
  | [], q, _ => by simp
  | el :: es, q, hcmp => by
    rw [List.foldl_cons]
    rw [pqFold_length es _ (fun e he => hcmp e (List.mem_cons_of_mem el he))]
    have h1 : ((PQueue.enqueue q el).1).length = q.length + 1 := by
      unfold PQueue.enqueue
      rw [if_pos (hcmp el (List.mem_cons_self el es))]
      exact heapPush_length _ q el
    rw [h1]
    simp only [List.length_cons]
    omega

/-- Witness for C4: three comparable elements, two of them tied on the
minimal key `3` with init times `1` and `2`; the dequeued element has
key `3` and init time `1`. -/
theorem pqueue_dequeue_returns_min_witness :
    (∀ el ∈ ([.comparable "req" 5 5 0, .comparable "req" 3 3 2,
        .comparable "req" 3 3 1] : List ReqElem), el.isComparable = true) ∧
    pqFromList [.comparable "req" 5 5 0, .comparable "req" 3 3 2,
      .comparable "req" 3 3 1] ≠ [] ∧
    ∃ r rest, PQueue.dequeue (pqFromList [.comparable "req" 5 5 0,
        .comparable "req" 3 3 2, .comparable "req" 3 3 1]) = some (r, rest) ∧
      r ∈ pqFromList [.comparable "req" 5 5 0, .comparable "req" 3 3 2,
        .comparable "req" 3 3 1] ∧
      (pqFromList [.comparable "req" 5 5 0, .comparable "req" 3 3 2,
        .comparable "req" 3 3 1]).Perm [.comparable "req" 5 5 0,
        .comparable "req" 3 3 2, .comparable "req" 3 3 1] ∧
      ∀ x ∈ pqFromList [.comparable "req" 5 5 0, .comparable "req" 3 3 2,
        .comparable "req" 3 3 1],
        r.cmpVal ≤ x.cmpVal ∧ (x.cmpVal = r.cmpVal → r.initTime ≤ x.initTime) := by
  have hcmp : ∀ el ∈ ([.comparable "req" 5 5 0, .comparable "req" 3 3 2,
      .comparable "req" 3 3 1] : List ReqElem), el.isComparable = true := by decide
  have hne : pqFromList [.comparable "req" 5 5 0, .comparable "req" 3 3 2,
      .comparable "req" 3 3 1] ≠ [] := by
    intro h
    have hl := pqFold_length [.comparable "req" 5 5 0, .comparable "req" 3 3 2,
      .comparable "req" 3 3 1] [] hcmp
    have hl2 : (pqFromList [.comparable "req" 5 5 0, .comparable "req" 3 3 2,
        .comparable "req" 3 3 1]).length = 3 := hl
    rw [h] at hl2
    simp at hl2
  exact ⟨hcmp, hne,
    pqueue_dequeue_returns_min
      [.comparable "req" 5 5 0, .comparable "req" 3 3 2, .comparable "req" 3 3 1]
      hcmp hne⟩

/-- C9: `PQueue.Enqueue` fails fast: an element that does not implement
the `Comparable` interface makes it panic with a diagnostic naming the
element's dynamic type, leaving the queue contents unchanged, while an
element that does implement it is added (the new backing slice is a
permutation of the old with the element) without panicking. -/
theorem pqueue_enqueue_fail_fast (pq : List ReqElem) (el : ReqElem) :
    (el.isComparable = false →
      PQueue.enqueue pq el =
        (pq, some ("Element enqueued to PQueue does not implement blocks.Comparable interface: "
          ++ el.typeName))) ∧
    (el.isComparable = true →
      (PQueue.enqueue pq el).2 = none ∧
      ((PQueue.enqueue pq el).1).Perm (el :: pq)) := by
  constructor
  · intro h
    unfold PQueue.enqueue
    rw [if_neg (by rw [h]; exact Bool.false_ne_true)]
  · intro h
    unfold PQueue.enqueue
    rw [if_pos h]
    exact ⟨rfl, heapPush_perm _ pq el⟩

/-- Witness for C9: a non-comparable element is rejected with the
diagnostic and leaves the queue unchanged; a comparable element is
accepted without panic. -/
theorem pqueue_enqueue_fail_fast_witness :
    (ReqElem.plain "*blocks.Request" ⟨0, 7, 7⟩).isComparable = false ∧
    PQueue.enqueue [] (ReqElem.plain "*blocks.Request" ⟨0, 7, 7⟩) =
      ([], some ("Element enqueued to PQueue does not implement blocks.Comparable interface: "
        ++ (ReqElem.plain "*blocks.Request" ⟨0, 7, 7⟩).typeName)) ∧
    (ReqElem.comparable "*blocks.Request" 7 7 0).isComparable = true ∧
    (PQueue.enqueue [] (ReqElem.comparable "*blocks.Request" 7 7 0)).2 = none ∧
    ((PQueue.enqueue [] (ReqElem.comparable "*blocks.Request" 7 7 0)).1).Perm
      [ReqElem.comparable "*blocks.Request" 7 7 0] :=
  ⟨rfl,
    (pqueue_enqueue_fail_fast [] (ReqElem.plain "*blocks.Request" ⟨0, 7, 7⟩)).1 rfl,
    rfl,
    ((pqueue_enqueue_fail_fast [] (ReqElem.comparable "*blocks.Request" 7 7 0)).2 rfl).1,
    ((pqueue_enqueue_fail_fast [] (ReqElem.comparable "*blocks.Request" 7 7 0)).2 rfl).2⟩

/-! ### Lemmas on the PS processor's run loop -/

/-- The scan of `getMinService` keeps either its starting best index or
switches to the offset of a scanned element that is a minimum. -/
theorem minServiceAux_spec :
    ∀ (l : List Request) (i bi : ℕ) (bv : ℚ),
      (minServiceAux l i bi bv = bi ∧ ∀ r ∈ l, bv ≤ r.serviceTime) ∨
      (∃ k, ∃ hk : k < l.length, minServiceAux l i bi bv = i + k ∧
        (l.get ⟨k, hk⟩).serviceTime ≤ bv ∧
        ∀ r ∈ l, (l.get ⟨k, hk⟩).serviceTime ≤ r.serviceTime)
  | [], i, bi, bv => Or.inl ⟨rfl, by simp⟩
  | r :: rs, i, bi, bv => by
    unfold minServiceAux
    by_cases h : r.serviceTime < bv
    · rw [if_pos h]
      rcases minServiceAux_spec rs (i + 1) i r.serviceTime with
        ⟨hres, hall⟩ | ⟨k, hk, hres, hle, hall⟩
      · refine Or.inr ⟨0, by simp, by rw [hres]; omega, le_of_lt h, ?_⟩
        intro x hx
        rcases List.mem_cons.mp hx with hx | hx
        · simp [hx]
        · exact hall x hx
      · refine Or.inr ⟨k + 1, by simpa using Nat.succ_lt_succ hk, by rw [hres]; omega, ?_, ?_⟩
        · exact le_of_lt (lt_of_le_of_lt hle h)
        · intro x hx
          rcases List.mem_cons.mp hx with hx | hx
          · exact hx ▸ hle
          · exact hall x hx
    · rw [if_neg h]
      have hbv : bv ≤ r.serviceTime := not_lt.mp h
      rcases minServiceAux_spec rs (i + 1) bi bv with
        ⟨hres, hall⟩ | ⟨k, hk, hres, hle, hall⟩
      · refine Or.inl ⟨hres, ?_⟩
        intro x hx
        rcases List.mem_cons.mp hx with hx | hx
        · exact hx ▸ hbv
        · exact hall x hx
      · refine Or.inr ⟨k + 1, by simpa using Nat.succ_lt_succ hk, by rw [hres]; omega, ?_, ?_⟩
        · exact hle
        · intro x hx
          rcases List.mem_cons.mp hx with hx | hx
          · have : (rs.get ⟨k, hk⟩).serviceTime ≤ r.serviceTime := hle.trans hbv
            simpa [hx] using this
          · exact hall x hx

/-- `getMinService` on a non-empty list returns a valid index of a
request with minimal remaining service time. -/
theorem getMinService_spec (l : List Request) (hne : l ≠ []) :
    getMinService l < l.length ∧
      ∀ r ∈ l, (l.getD (getMinService l) default).serviceTime ≤ r.serviceTime := by
  cases l with
  | nil => exact absurd rfl hne
  | cons r rs =>
    rcases minServiceAux_spec (r :: rs) 0 0 r.serviceTime with
      ⟨hres, hall⟩ | ⟨k, hk, hres, _, hall⟩
    · have hres0 : getMinService (r :: rs) = 0 := hres
      rw [hres0]
      refine ⟨by simp, ?_⟩
      intro x hx
      simpa using hall x hx
    · have hres0 : getMinService (r :: rs) = k := by
        show minServiceAux (r :: rs) 0 0 r.serviceTime = k
        rw [hres]
        omega
      rw [hres0]
      refine ⟨hk, ?_⟩
      intro x hx
      rw [List.getD_eq_getElem _ default hk]
      exact hall x hx

/-- `getMinService` on a non-empty list is a valid index. -/
theorem getMinService_lt (l : List Request) (hne : l ≠ []) :
    getMinService l < l.length :=
  (getMinService_spec l hne).1

/-- Rescheduling preserves the full-rate invariant, given the pre-timer
parts of it on the incoming state. -/
theorem psSched_c2 (s s2 : PSState) (hstep : psSched s = some s2)
    (hprev : s.proc.prevTime = s.now)
    (hflag : s.factorOne = true →
      (∀ r ∈ s.proc.reqList,
        r.serviceTime = r.originalServiceTime - (s.now - r.initTime)) ∧
      (∀ rt ∈ s.terminated, rt.2 = rt.1.initTime + rt.1.originalServiceTime)) :
    psInvC2 s2 := by
  unfold psSched at hstep
  by_cases hc : s.proc.count > 0
  · rw [if_pos hc] at hstep
    cases hL : s.proc.reqList with
    | nil =>
      rw [hL] at hstep
      exact absurd hstep (by simp)
    | cons r rs =>
      rw [hL] at hstep
      dsimp only at hstep
      obtain rfl := Option.some.inj hstep
      refine ⟨hprev, ?_⟩
      intro hf
      rw [Bool.and_eq_true, decide_eq_true_eq] at hf
      obtain ⟨hf0, hf1⟩ := hf
      obtain ⟨hshape, hterm⟩ := hflag hf0
      refine ⟨?_, ?_, ?_⟩
      · intro x hx
        exact hshape x (hL ▸ hx)
      · intro T hT
        obtain rfl := Option.some.inj hT
        have hlt : getMinService (r :: rs) < (r :: rs).length :=
          getMinService_lt (r :: rs) (by simp)
        refine ⟨by simpa [hL] using hlt, ?_⟩
        rw [hf1, div_one, List.getD_eq_getElem _ default hlt]
        simp [hL, Request.getServiceTime]
      · exact hterm
  · rw [if_neg hc] at hstep
    obtain rfl := Option.some.inj hstep
    refine ⟨hprev, ?_⟩
    intro hf
    obtain ⟨hshape, hterm⟩ := hflag hf
    exact ⟨hshape, fun T hT => absurd hT (by simp), hterm⟩

/-- An arrival resumption preserves the full-rate invariant. -/
theorem psArrive_c2 (s : PSState) (a : Arrival) (rest : List Arrival)
    (s2 : PSState) (hstep : psArrive s a rest = some s2) (hinv : psInvC2 s) :
    psInvC2 s2 := by
  obtain ⟨hprev, hflag⟩ := hinv
  unfold psArrive at hstep
  refine psSched_c2 _ s2 hstep ?_ ?_
  · rfl
  · intro hf
    rw [Bool.and_eq_true, decide_eq_true_eq] at hf
    obtain ⟨hf0, hf1⟩ := hf
    obtain ⟨hshape, _, hterm⟩ := hflag hf0
    refine ⟨?_, hterm⟩
    intro x hx
    rcases List.mem_append.mp hx with hx | hx
    · obtain ⟨r0, hr0, rfl⟩ := List.mem_map.mp hx
      have h0 := hshape r0 hr0
      simp only [PSProcessor.updateServiceTimes, Request.subServiceTime]
      rw [hprev, hf1, h0]
      ring
    · rw [List.mem_singleton.mp hx]
      simp [newRequest]

/-- A timer-expiry resumption preserves the full-rate invariant; the
armed timer is the wake-up time. -/
theorem psTimer_c2 (s : PSState) (T : ℚ) (s2 : PSState)
    (hstep : psTimer s T = some s2) (htm : s.timer = some T)
    (hinv : psInvC2 s) : psInvC2 s2 := by
  obtain ⟨hprev, hflag⟩ := hinv
  unfold psTimer at hstep
  dsimp only at hstep
  split at hstep
  · rename_i h
    refine psSched_c2 _ s2 hstep ?_ ?_
    · rfl
    · intro hf
      rw [Bool.and_eq_true, decide_eq_true_eq] at hf
      obtain ⟨hf0, hf1⟩ := hf
      obtain ⟨hshape, htimer, hterm⟩ := hflag hf0
      have hshape2 : ∀ x ∈ (s.proc.updateServiceTimes T).reqList,
          x.serviceTime = x.originalServiceTime - (T - x.initTime) := by
        intro x hx
        simp only [PSProcessor.updateServiceTimes] at hx
        obtain ⟨r0, hr0, rfl⟩ := List.mem_map.mp hx
        have h0 := hshape r0 hr0
        simp only [Request.subServiceTime]
        rw [hprev, hf1, h0]
        ring
      refine ⟨?_, ?_⟩
      · intro x hx
        exact hshape2 x (List.mem_of_mem_eraseIdx hx)
      · intro rt hrt
        rcases List.mem_append.mp hrt with hrt | hrt
        · exact hterm rt hrt
        · rw [List.mem_singleton.mp hrt]
          obtain ⟨hc, hT⟩ := htimer T htm
          have hcurr : (s.proc.updateServiceTimes T).curr = s.proc.curr := rfl
          have hreq : ((s.proc.updateServiceTimes T).reqList.get
              ⟨(s.proc.updateServiceTimes T).curr, by assumption⟩) =
              (s.proc.reqList.get ⟨s.proc.curr, hc⟩).subServiceTime
                ((T - s.proc.prevTime) * s.proc.getFactor) := by
            simp only [PSProcessor.updateServiceTimes, List.get_eq_getElem]
            dsimp only
            rw [List.getElem_map]
          rw [hreq]
          have h0 := hshape (s.proc.reqList.get ⟨s.proc.curr, hc⟩)
            (List.get_mem _ _ _)
          simp only [Request.subServiceTime]
          rw [hT, h0]
          ring
  · exact absurd hstep (by simp)

/-- One PS step preserves the full-rate invariant. -/
theorem psStep_c2 (s s2 : PSState) (hstep : psStep s = some s2)
    (hinv : psInvC2 s) : psInvC2 s2 := by
  unfold psStep at hstep
  cases htm : s.timer with
  | none =>
    cases harr : s.arrivals with
    | nil =>
      rw [htm, harr] at hstep
      exact absurd hstep (by simp)
    | cons a rest =>
      rw [htm, harr] at hstep
      exact psArrive_c2 s a rest s2 hstep hinv
  | some T =>
    cases harr : s.arrivals with
    | nil =>
      rw [htm, harr] at hstep
      exact psTimer_c2 s T s2 hstep htm hinv
    | cons a rest =>
      rw [htm, harr] at hstep
      have hstep2 : (if a.time < T then psArrive s a rest else psTimer s T) = some s2 :=
        hstep
      by_cases hlt : a.time < T
      · rw [if_pos hlt] at hstep2
        exact psArrive_c2 s a rest s2 hstep2 hinv
      · rw [if_neg hlt] at hstep2
        exact psTimer_c2 s T s2 hstep2 htm hinv

/-- A PS run preserves the full-rate invariant. -/
theorem psRun_c2 : ∀ (fuel : ℕ) (s : PSState), psInvC2 s → psInvC2 (psRun fuel s)
  | 0, s, hinv => hinv
  | fuel + 1, s, hinv => by
    unfold psRun
    cases hstep : psStep s with
    | none => exact hinv
    | some s2 => exact psRun_c2 fuel s2 (psStep_c2 s s2 hstep hinv)

/-- C2: under the PS policy, if the sharing factor is `1` at every use
during the run (`workerCount ≥ count` throughout), then every request
terminated by `PSProcessor.Run` completes at virtual time exactly
`init_time + original_service_time`. -/
theorem ps_full_rate_completion (fuel : ℕ) (w : ℤ) (arr : List Arrival)
    (hfac : (psRun fuel (psInit w arr)).factorOne = true) :
    ∀ rt ∈ (psRun fuel (psInit w arr)).terminated,
      rt.2 = rt.1.initTime + rt.1.originalServiceTime := by
  have hinit : psInvC2 (psInit w arr) := by
    refine ⟨rfl, ?_⟩
    intro _
    refine ⟨by simp [psInit, newPSProcessor], ?_, by simp [psInit]⟩
    intro T hT
    simp [psInit] at hT
  exact ((psRun_c2 fuel _ hinit).2 hfac).2.2

/-- Witness for C2: one worker, one arrival at time `1` with service
time `5`; the factor stays `1` and the request terminates at `6`. -/
theorem ps_full_rate_completion_witness :
    (psRun 3 (psInit 1 [{ time := 1, service := 5 }])).factorOne = true ∧
    ({ initTime := 1, serviceTime := 0, originalServiceTime := 5 }, (6 : ℚ)) ∈
      (psRun 3 (psInit 1 [{ time := 1, service := 5 }])).terminated ∧
    (6 : ℚ) = ({ initTime := 1, serviceTime := 0, originalServiceTime := 5 } : Request).initTime
      + ({ initTime := 1, serviceTime := 0, originalServiceTime := 5 } : Request).originalServiceTime := by
  have heval : psRun 3 (psInit 1 [{ time := 1, service := 5 }]) =
      { proc := { workerCount := 1, count := 0, reqList := [], curr := 0, prevTime := 6 }
        now := 6
        timer := none
        arrivals := []
        terminated := [({ initTime := 1, serviceTime := 0, originalServiceTime := 5 }, 6)]
        factorOne := true } := by
    norm_num [psRun, psStep, psArrive, psTimer, psSched, psInit, newPSProcessor,
      PSProcessor.updateServiceTimes, PSProcessor.getFactor, getMinService, minServiceAux,
      newRequest, Request.getServiceTime, Request.subServiceTime]
  have hmem : ({ initTime := 1, serviceTime := 0, originalServiceTime := 5 }, (6 : ℚ)) ∈
      (psRun 3 (psInit 1 [{ time := 1, service := 5 }])).terminated := by
    rw [heval]
    simp
  exact ⟨by rw [heval], hmem,
    ps_full_rate_completion 3 1 [{ time := 1, service := 5 }] (by rw [heval]) _ hmem⟩

/-! ### Service-time bounds (C5) -/

/-- One TS iteration keeps all service times within bounds when the
quantum is non-negative. -/
theorem tsStep_ok (quantum ctxCost : ℚ) (hq : 0 ≤ quantum) :
    ∀ (s : TSState), tsStateOK s → tsStateOK (tsStep quantum ctxCost s)
  | ⟨[], _, _, _, _⟩, h => h
  | ⟨req :: rest, now, term, d, rq⟩, h => by
    obtain ⟨hqok, htok⟩ := h
    unfold tsStep
    dsimp only
    by_cases hle : req.getServiceTime ≤ quantum
    · rw [if_pos hle]
      refine ⟨?_, ?_⟩
      · intro r hr
        exact hqok r (List.mem_cons_of_mem _ hr)
      · intro rt hrt
        rcases List.mem_append.mp hrt with hrt | hrt
        · exact htok rt hrt
        · rw [List.mem_singleton.mp hrt]
          exact hqok req (List.mem_cons_self _ _)
    · rw [if_neg hle]
      refine ⟨?_, htok⟩
      intro r hr
      rcases List.mem_append.mp hr with hr | hr
      · exact hqok r (List.mem_cons_of_mem _ hr)
      · rw [List.mem_singleton.mp hr]
        obtain ⟨h0, h1⟩ := hqok req (List.mem_cons_self _ _)
        have hgt : quantum < req.serviceTime := not_le.mp hle
        exact ⟨by simp only [Request.subServiceTime]; linarith,
          by simp only [Request.subServiceTime]; linarith⟩

/-- One TS event keeps all service times within bounds. -/
theorem tsApply_ok (quantum ctxCost : ℚ) (hq : 0 ≤ quantum) (e : TSEvent)
    (he : eventOK e) (s : TSState) (h : tsStateOK s) :
    tsStateOK (tsApply quantum ctxCost e s) := by
  cases e with
  | dispatch => exact tsStep_ok quantum ctxCost hq s h
  | arrive t service =>
    obtain ⟨hqok, htok⟩ := h
    refine ⟨?_, htok⟩
    intro r hr
    rcases List.mem_append.mp hr with hr | hr
    · exact hqok r hr
    · rw [List.mem_singleton.mp hr]
      exact ⟨he, le_refl _⟩

/-- Every state of a TS trace keeps all service times within bounds. -/
theorem tsTrace_ok (quantum ctxCost : ℚ) (hq : 0 ≤ quantum) :
    ∀ (events : List TSEvent) (s : TSState), (∀ e ∈ events, eventOK e) →
      tsStateOK s → ∀ x ∈ tsTrace quantum ctxCost events s, tsStateOK x
  | [], s, _, hs, x, hx => by
    rw [List.mem_singleton.mp hx]
    exact hs
  | e :: es, s, hev, hs, x, hx => by
    rcases List.mem_cons.mp hx with hx | hx
    · exact hx ▸ hs
    · exact tsTrace_ok quantum ctxCost hq es _
        (fun e2 he2 => hev e2 (List.mem_cons_of_mem _ he2))
        (tsApply_ok quantum ctxCost hq e (hev e (List.mem_cons_self _ _)) s hs) x hx

/-- One RTC iteration keeps all service times within bounds (the
service time is never mutated). -/
theorem rtcStep_ok (ctxCost : ℚ) :
    ∀ (s : TSState), tsStateOK s → tsStateOK (rtcStep ctxCost s)
  | ⟨[], _, _, _, _⟩, h => h
  | ⟨req :: rest, now, term, d, rq⟩, h => by
    obtain ⟨hqok, htok⟩ := h
    unfold rtcStep
    refine ⟨?_, ?_⟩
    · intro r hr
      exact hqok r (List.mem_cons_of_mem _ hr)
    · intro rt hrt
      rcases List.mem_append.mp hrt with hrt | hrt
      · exact htok rt hrt
      · rw [List.mem_singleton.mp hrt]
        exact hqok req (List.mem_cons_self _ _)

/-- One RTC event keeps all service times within bounds. -/
theorem rtcApply_ok (ctxCost : ℚ) (e : TSEvent) (he : eventOK e) (s : TSState)
    (h : tsStateOK s) : tsStateOK (rtcApply ctxCost e s) := by
  cases e with
  | dispatch => exact rtcStep_ok ctxCost s h
  | arrive t service =>
    obtain ⟨hqok, htok⟩ := h
    refine ⟨?_, htok⟩
    intro r hr
    rcases List.mem_append.mp hr with hr | hr
    · exact hqok r hr
    · rw [List.mem_singleton.mp hr]
      exact ⟨he, le_refl _⟩

/-- Every state of an RTC trace keeps all service times within bounds. -/
theorem rtcTrace_ok (ctxCost : ℚ) :
    ∀ (events : List TSEvent) (s : TSState), (∀ e ∈ events, eventOK e) →
      tsStateOK s → ∀ x ∈ rtcTrace ctxCost events s, tsStateOK x
  | [], s, _, hs, x, hx => by
    rw [List.mem_singleton.mp hx]
    exact hs
  | e :: es, s, hev, hs, x, hx => by
    rcases List.mem_cons.mp hx with hx | hx
    · exact hx ▸ hs
    · exact rtcTrace_ok ctxCost es _
        (fun e2 he2 => hev e2 (List.mem_cons_of_mem _ he2))
        (rtcApply_ok ctxCost e (hev e (List.mem_cons_self _ _)) s hs) x hx

/-- `heap.Pop` on the empty slice is `none`. -/
theorem heapPop_nil {α : Type} [Inhabited α] (lt : α → α → Bool) :
    heapPop lt ([] : List α) = none := rfl

/-- One SRPT iteration keeps all service times within bounds. -/
theorem srptStep_ok (quantum ctxCost : ℚ) (hq : 0 ≤ quantum) (s : SrptState)
    (h : srptStateOK s) : srptStateOK (srptStep quantum ctxCost s) := by
  obtain ⟨hqok, htok⟩ := h
  unfold srptStep
  cases hpop : heapPop srptLess s.queue with
  | none => exact ⟨hqok, htok⟩
  | some p =>
    obtain ⟨req, rest⟩ := p
    have hne : s.queue ≠ [] := by
      intro hnil
      rw [hnil, heapPop_nil] at hpop
      cases hpop
    obtain ⟨rest2, hdq, hperm⟩ := heapPop_root srptLess s.queue hne
    rw [hpop] at hdq
    obtain ⟨hreq, hrest⟩ := Prod.mk.injEq .. ▸ Option.some.inj hdq.symm
    have hmem : req ∈ s.queue := by
      rw [← hreq]
      exact hperm.subset (List.mem_cons_self _ _)
    have hsub : ∀ x ∈ rest, x ∈ s.queue := by
      intro x hx
      rw [← hrest] at hx
      exact hperm.subset (List.mem_cons_of_mem _ hx)
    dsimp only
    by_cases hle : req.getServiceTime ≤ quantum
    · rw [if_pos hle]
      refine ⟨fun r hr => hqok r (hsub r hr), ?_⟩
      intro rt hrt
      rcases List.mem_append.mp hrt with hrt | hrt
      · exact htok rt hrt
      · rw [List.mem_singleton.mp hrt]
        exact hqok req hmem
    · rw [if_neg hle]
      refine ⟨?_, htok⟩
      intro r hr
      have hr2 := (heapPush_perm srptLess rest (req.subServiceTime quantum)).subset hr
      rcases List.mem_cons.mp hr2 with hr2 | hr2
      · obtain ⟨h0, h1⟩ := hqok req hmem
        have hgt : quantum < req.serviceTime := not_le.mp hle
        rw [hr2]
        exact ⟨by simp only [Request.subServiceTime]; linarith,
          by simp only [Request.subServiceTime]; linarith⟩
      · exact hqok r (hsub r hr2)

/-- One SRPT event keeps all service times within bounds. -/
theorem srptApply_ok (quantum ctxCost : ℚ) (hq : 0 ≤ quantum) (e : TSEvent)
    (he : eventOK e) (s : SrptState) (h : srptStateOK s) :
    srptStateOK (srptApply quantum ctxCost e s) := by
  cases e with
  | dispatch => exact srptStep_ok quantum ctxCost hq s h
  | arrive t service =>
    obtain ⟨hqok, htok⟩ := h
    refine ⟨?_, htok⟩
    intro r hr
    have hr2 := (heapPush_perm srptLess s.queue (newRequest t service)).subset hr
    rcases List.mem_cons.mp hr2 with hr2 | hr2
    · rw [hr2]
      exact ⟨he, le_refl _⟩
    · exact hqok r hr2

/-- Every state of an SRPT trace keeps all service times within
bounds. -/
theorem srptTrace_ok (quantum ctxCost : ℚ) (hq : 0 ≤ quantum) :
    ∀ (events : List TSEvent) (s : SrptState), (∀ e ∈ events, eventOK e) →
      srptStateOK s → ∀ x ∈ srptTrace quantum ctxCost events s, srptStateOK x
  | [], s, _, hs, x, hx => by
    rw [List.mem_singleton.mp hx]
    exact hs
  | e :: es, s, hev, hs, x, hx => by
    rcases List.mem_cons.mp hx with hx | hx
    · exact hx ▸ hs
    · exact srptTrace_ok quantum ctxCost hq es _
        (fun e2 he2 => hev e2 (List.mem_cons_of_mem _ he2))
        (srptApply_ok quantum ctxCost hq e (hev e (List.mem_cons_self _ _)) s hs) x hx

/-- With at least one worker and a non-negative concurrent count, the
sharing factor is positive. -/
theorem getFactor_pos (p : PSProcessor) (hw : 1 ≤ p.workerCount)
    (_hc : 0 ≤ p.count) : 0 < p.getFactor := by
  unfold PSProcessor.getFactor
  split
  · norm_num
  · rename_i h
    push_neg at h
    have hcpos : (0 : ℚ) < (p.count : ℚ) := by
      have h1 : (1 : ℤ) ≤ p.count := le_trans hw h
      exact_mod_cast lt_of_lt_of_le zero_lt_one h1
    have hwpos : (0 : ℚ) < (p.workerCount : ℚ) := by
      exact_mod_cast lt_of_lt_of_le zero_lt_one hw
    exact div_pos hwpos hcpos

/-- Rescheduling preserves the bounds invariant, given its pre-timer
parts on the incoming state. -/
theorem psSched_c5 (s s2 : PSState) (hstep : psSched s = some s2)
    (hprev : s.proc.prevTime = s.now)
    (hw : 1 ≤ s.proc.workerCount)
    (hcount : s.proc.count = (s.proc.reqList.length : ℤ))
    (hreq : ∀ r ∈ s.proc.reqList, reqOK r)
    (hterm : ∀ rt ∈ s.terminated, reqOK rt.1)
    (harr : ∀ a ∈ s.arrivals, s.now ≤ a.time ∧ 0 ≤ a.service)
    (hpair : s.arrivals.Pairwise (fun a b => a.time ≤ b.time)) :
    psInvC5 s2 := by
  unfold psSched at hstep
  by_cases hc : s.proc.count > 0
  · rw [if_pos hc] at hstep
    cases hL : s.proc.reqList with
    | nil =>
      rw [hL] at hstep
      exact absurd hstep (by simp)
    | cons r rs =>
      rw [hL] at hstep
      dsimp only at hstep
      obtain rfl := Option.some.inj hstep
      obtain ⟨hlt, hmin⟩ := getMinService_spec (r :: rs) (by simp)
      have hfpos : 0 < s.proc.getFactor := getFactor_pos s.proc hw (le_of_lt hc)
      have hmem : (r :: rs).getD (getMinService (r :: rs)) default ∈ (r :: rs) := by
        rw [List.getD_eq_getElem _ default hlt]
        exact List.getElem_mem hlt
      have hreq2 : ∀ x ∈ (r :: rs), reqOK x := by
        rw [← hL]
        exact hreq
      have hstpos :
          0 ≤ ((r :: rs).getD (getMinService (r :: rs)) default).serviceTime :=
        (hreq2 _ hmem).1
      refine ⟨hprev, hw, hcount, hreq, hterm, harr, hpair, ?_, ?_⟩
      · intro T hT
        obtain rfl := Option.some.inj hT
        constructor
        · show s.now ≤ s.now + ((r :: rs).getD (getMinService (r :: rs))
            default).getServiceTime / s.proc.getFactor
          have : 0 ≤ ((r :: rs).getD (getMinService (r :: rs))
              default).getServiceTime / s.proc.getFactor :=
            div_nonneg hstpos (le_of_lt hfpos)
          linarith
        · intro x hx
          have hxmem : x ∈ (r :: rs) := hL ▸ hx
          show (s.now + ((r :: rs).getD (getMinService (r :: rs))
              default).getServiceTime / s.proc.getFactor - s.now) *
              s.proc.getFactor ≤ x.serviceTime
          have hcancel : (s.now + ((r :: rs).getD (getMinService (r :: rs))
                default).getServiceTime / s.proc.getFactor - s.now) *
                s.proc.getFactor =
              ((r :: rs).getD (getMinService (r :: rs)) default).serviceTime := by
            rw [add_sub_cancel_left]
            exact div_mul_cancel₀ _ (ne_of_gt hfpos)
          rw [hcancel]
          exact hmin x hxmem
      · intro hnone
        cases hnone
  · rw [if_neg hc] at hstep
    obtain rfl := Option.some.inj hstep
    refine ⟨hprev, hw, hcount, hreq, hterm, harr, hpair, ?_, ?_⟩
    · intro T hT
      cases hT
    · intro _
      have hlen : s.proc.reqList.length = 0 := by omega
      exact List.length_eq_zero.mp hlen

/-- An arrival resumption preserves the bounds invariant. -/
theorem psArrive_c5 (s : PSState) (a : Arrival) (rest : List Arrival)
    (s2 : PSState) (hstep : psArrive s a rest = some s2) (hinv : psInvC5 s)
    (hhead : s.arrivals = a :: rest)
    (htlt : ∀ T, s.timer = some T → a.time ≤ T) : psInvC5 s2 := by
  obtain ⟨hprev, hw, hcount, hreq, hterm, harr, hpair, htimer, hnone⟩ := hinv
  have hmema : a ∈ s.arrivals := hhead ▸ List.mem_cons_self a rest
  have hanow : s.now ≤ a.time := (harr a hmema).1
  have hasvc : 0 ≤ a.service := (harr a hmema).2
  have hc0 : (0 : ℤ) ≤ s.proc.count := by
    rw [hcount]
    exact_mod_cast Nat.zero_le _
  have hfpos : 0 < s.proc.getFactor := getFactor_pos s.proc hw hc0
  unfold psArrive at hstep
  refine psSched_c5 _ s2 hstep rfl hw ?_ ?_ hterm ?_ ?_
  · show s.proc.count + 1 =
      (((s.proc.reqList.map fun r => r.subServiceTime
        ((a.time - s.proc.prevTime) * s.proc.getFactor)) ++
          [newRequest a.time a.service]).length : ℤ)
    rw [List.length_append, List.length_map, List.length_singleton]
    push_cast
    omega
  · intro r hr
    rcases List.mem_append.mp hr with hr | hr
    · obtain ⟨r0, hr0, rfl⟩ := List.mem_map.mp hr
      obtain ⟨h0, h1⟩ := hreq r0 hr0
      have hdiff0 : 0 ≤ (a.time - s.proc.prevTime) * s.proc.getFactor := by
        apply mul_nonneg _ (le_of_lt hfpos)
        rw [hprev]
        linarith
      have hdiffle :
          (a.time - s.proc.prevTime) * s.proc.getFactor ≤ r0.serviceTime := by
        cases htm : s.timer with
        | none =>
          rw [hnone htm] at hr0
          cases hr0
        | some T =>
          obtain ⟨hTn, hTle⟩ := htimer T htm
          have h2 := hTle r0 hr0
          have h3 : (a.time - s.now) * s.proc.getFactor ≤
              (T - s.now) * s.proc.getFactor := by
            apply mul_le_mul_of_nonneg_right _ (le_of_lt hfpos)
            have := htlt T htm
            linarith
          rw [hprev]
          linarith
      exact ⟨by simp only [Request.subServiceTime]; linarith,
        by simp only [Request.subServiceTime]; linarith⟩
    · rw [List.mem_singleton.mp hr]
      exact ⟨hasvc, le_refl _⟩
  · intro b hb
    refine ⟨(List.pairwise_cons.mp (hhead ▸ hpair)).1 b hb, ?_⟩
    exact (harr b (hhead ▸ List.mem_cons_of_mem _ hb)).2
  · exact (List.pairwise_cons.mp (hhead ▸ hpair)).2

/-- A timer-expiry resumption preserves the bounds invariant. -/
theorem psTimer_c5 (s : PSState) (T : ℚ) (s2 : PSState)
    (hstep : psTimer s T = some s2) (htm : s.timer = some T) (hinv : psInvC5 s)
    (harrT : ∀ b ∈ s.arrivals, T ≤ b.time) : psInvC5 s2 := by
  obtain ⟨hprev, hw, hcount, hreq, hterm, harr, hpair, htimer, hnone⟩ := hinv
  obtain ⟨hTn, hTle⟩ := htimer T htm
  have hc0 : (0 : ℤ) ≤ s.proc.count := by
    rw [hcount]
    exact_mod_cast Nat.zero_le _
  have hfpos : 0 < s.proc.getFactor := getFactor_pos s.proc hw hc0
  have hmap : ∀ x ∈ (s.proc.updateServiceTimes T).reqList, reqOK x := by
    intro x hx
    simp only [PSProcessor.updateServiceTimes] at hx
    obtain ⟨r0, hr0, rfl⟩ := List.mem_map.mp hx
    obtain ⟨h0, h1⟩ := hreq r0 hr0
    have hdiff0 : 0 ≤ (T - s.proc.prevTime) * s.proc.getFactor := by
      apply mul_nonneg _ (le_of_lt hfpos)
      rw [hprev]
      linarith
    have hdiffle : (T - s.proc.prevTime) * s.proc.getFactor ≤ r0.serviceTime := by
      rw [hprev]
      exact hTle r0 hr0
    exact ⟨by simp only [Request.subServiceTime]; linarith,
      by simp only [Request.subServiceTime]; linarith⟩
  unfold psTimer at hstep
  dsimp only at hstep
  split at hstep
  · rename_i h
    refine psSched_c5 _ s2 hstep rfl hw ?_ ?_ ?_ ?_ hpair
    · show s.proc.count - 1 =
        (((s.proc.updateServiceTimes T).reqList.eraseIdx
          (s.proc.updateServiceTimes T).curr).length : ℤ)
      have hlen : (s.proc.updateServiceTimes T).reqList.length =
          s.proc.reqList.length := by
        simp [PSProcessor.updateServiceTimes]
      rw [List.length_eraseIdx]
      rw [if_pos h]
      rw [hlen]
      have hpos : 0 < s.proc.reqList.length := by
        have := h
        rw [hlen] at this
        omega
      push_cast [hpos]
      omega
    · intro r hr
      exact hmap r (List.mem_of_mem_eraseIdx hr)
    · intro rt hrt
      rcases List.mem_append.mp hrt with hrt | hrt
      · exact hterm rt hrt
      · rw [List.mem_singleton.mp hrt]
        exact hmap _ (List.get_mem _ _ _)
    · intro b hb
      exact ⟨harrT b hb, (harr b hb).2⟩
  · exact absurd hstep (by simp)

/-- One PS step preserves the bounds invariant. -/
theorem psStep_c5 (s s2 : PSState) (hstep : psStep s = some s2)
    (hinv : psInvC5 s) : psInvC5 s2 := by
  unfold psStep at hstep
  cases htm : s.timer with
  | none =>
    cases harr : s.arrivals with
    | nil =>
      rw [htm, harr] at hstep
      exact absurd hstep (by simp)
    | cons a rest =>
      rw [htm, harr] at hstep
      refine psArrive_c5 s a rest s2 hstep hinv harr ?_
      intro T hT
      rw [htm] at hT
      cases hT
  | some T =>
    cases harr : s.arrivals with
    | nil =>
      rw [htm, harr] at hstep
      refine psTimer_c5 s T s2 hstep htm hinv ?_
      intro b hb
      rw [harr] at hb
      cases hb
    | cons a rest =>
      rw [htm, harr] at hstep
      have hstep2 : (if a.time < T then psArrive s a rest else psTimer s T) = some s2 :=
        hstep
      by_cases hlt : a.time < T
      · rw [if_pos hlt] at hstep2
        refine psArrive_c5 s a rest s2 hstep2 hinv harr ?_
        intro T2 hT2
        rw [htm] at hT2
        obtain rfl := Option.some.inj hT2
        exact le_of_lt hlt
      · rw [if_neg hlt] at hstep2
        refine psTimer_c5 s T s2 hstep2 htm hinv ?_
        intro b hb
        rw [harr] at hb
        rcases List.mem_cons.mp hb with hb | hb
        · rw [hb]
          exact not_lt.mp hlt
        · have hpair := hinv.2.2.2.2.2.2.1
          rw [harr] at hpair
          have h1 := (List.pairwise_cons.mp hpair).1 b hb
          have h2 := not_lt.mp hlt
          linarith

/-- The bounds invariant implies the observable bounds. -/
theorem psInvC5_ok (s : PSState) (hinv : psInvC5 s) : psStateOK s :=
  ⟨hinv.2.2.2.1, hinv.2.2.2.2.1⟩

/-- Every state of a PS trace satisfies the observable bounds. -/
theorem psTrace_c5 : ∀ (fuel : ℕ) (s : PSState), psInvC5 s →
    ∀ x ∈ psTrace fuel s, psStateOK x
  | 0, s, hinv, x, hx => by
    rw [List.mem_singleton.mp hx]
    exact psInvC5_ok s hinv
  | fuel + 1, s, hinv, x, hx => by
    unfold psTrace at hx
    cases hstep : psStep s with
    | none =>
      rw [hstep] at hx
      rw [List.mem_singleton.mp hx]
      exact psInvC5_ok s hinv
    | some s2 =>
      rw [hstep] at hx
      rcases List.mem_cons.mp hx with hx | hx
      · exact hx ▸ psInvC5_ok s hinv
      · exact psTrace_c5 fuel s2 (psStep_c5 s s2 hstep hinv) x hx

/-- C5: at every observable point of a run — every suspension-point
state of the trace and every `TerminateReq` record — every request
satisfies `0 ≤ service_time ≤ original_service_time`, under each policy
(RTC, TS, SRPT and PS), starting from creation where
`service_time = original_service_time`; the quantum is non-negative,
arrival service samples are non-negative, PS has at least one worker
and its arrivals come in non-decreasing future times. -/
theorem service_time_bounds (quantum ctxCost t0 : ℚ) (w : ℤ) (fuel : ℕ)
    (tsEvents srptEvents rtcEvents : List TSEvent) (arr : List Arrival)
    (hq : 0 ≤ quantum)
    (hts : ∀ e ∈ tsEvents, eventOK e)
    (hsrpt : ∀ e ∈ srptEvents, eventOK e)
    (hrtc : ∀ e ∈ rtcEvents, eventOK e)
    (hw : 1 ≤ w)
    (hpair : arr.Pairwise (fun a b => a.time ≤ b.time))
    (harr : ∀ a ∈ arr, 0 ≤ a.time ∧ 0 ≤ a.service) :
    (∀ s ∈ tsTrace quantum ctxCost tsEvents (tsInit [] t0), tsStateOK s) ∧
    (∀ s ∈ srptTrace quantum ctxCost srptEvents ⟨[], t0, []⟩, srptStateOK s) ∧
    (∀ s ∈ rtcTrace ctxCost rtcEvents (tsInit [] t0), tsStateOK s) ∧
    (∀ s ∈ psTrace fuel (psInit w arr), psStateOK s) := by
  refine ⟨?_, ?_, ?_, ?_⟩
  · exact tsTrace_ok quantum ctxCost hq tsEvents (tsInit [] t0) hts
      ⟨by simp [tsInit], by simp [tsInit]⟩
  · exact srptTrace_ok quantum ctxCost hq srptEvents ⟨[], t0, []⟩ hsrpt
      ⟨by simp, by simp⟩
  · exact rtcTrace_ok ctxCost rtcEvents (tsInit [] t0) hrtc
      ⟨by simp [tsInit], by simp [tsInit]⟩
  · refine psTrace_c5 fuel (psInit w arr) ?_
    refine ⟨rfl, hw, by simp [psInit, newPSProcessor], ?_, ?_, ?_, hpair, ?_, ?_⟩
    · intro r hr
      simp [psInit, newPSProcessor] at hr
    · intro rt hrt
      simp [psInit] at hrt
    · intro a ha
      exact ⟨(harr a ha).1, (harr a ha).2⟩
    · intro T hT
      simp [psInit] at hT
    · intro _
      rfl

/-- Witness for C5: quantum `10`, context cost `1`, one worker, one
pending PS arrival at time `1` with service `2`; the initial states of
all four policies satisfy the bounds. -/
theorem service_time_bounds_witness :
    (0 : ℚ) ≤ 10 ∧ (1 : ℤ) ≤ 1 ∧
    ([{ time := 1, service := 2 }] : List Arrival).Pairwise
      (fun a b => a.time ≤ b.time) ∧
    (∀ a ∈ ([{ time := 1, service := 2 }] : List Arrival),
      0 ≤ a.time ∧ 0 ≤ a.service) ∧
    ((∀ s ∈ tsTrace 10 1 [] (tsInit [] 0), tsStateOK s) ∧
     (∀ s ∈ srptTrace 10 1 [] ⟨[], 0, []⟩, srptStateOK s) ∧
     (∀ s ∈ rtcTrace 1 [] (tsInit [] 0), tsStateOK s) ∧
     (∀ s ∈ psTrace 0 (psInit 1 [{ time := 1, service := 2 }]), psStateOK s)) := by
  refine ⟨by norm_num, le_refl _, ?_, ?_, ?_⟩
  · simp
  · intro a ha
    rw [List.mem_singleton.mp ha]
    exact ⟨by norm_num, by norm_num⟩
  · exact service_time_bounds 10 1 0 1 0 [] [] [] [{ time := 1, service := 2 }]
      (by norm_num) (by simp) (by simp) (by simp) (le_refl _) (by simp)
      (fun a ha => by
        rw [List.mem_singleton.mp ha]
        exact ⟨by norm_num, by norm_num⟩)

end SchedSim





